import Mathlib

set_option maxHeartbeats 1000000

/-!
Verification of the execution-orchestration core of the `gogh` local CI runner.

Go maps are embedded as association lists: the list order plays the role of one
possible (nondeterministic) iteration order of the Go map, and two association
lists that are permutations of one another denote the same map value.
Go strings are embedded as `String` where only equality and concatenation are
needed, and as `List Char` where index/substring manipulation is needed
(expressions, environment expansion, action-reference normalization).
-/

namespace Gogh

/-- Association-list lookup; mirrors a Go map read `v, ok := m[k]`. -/
def alookup {α β : Type} [DecidableEq α] : List (α × β) → α → Option β
  | [], _ => none
  | (k, v) :: rest, a => if k = a then some v else alookup rest a

/-- Association-list write; mirrors a Go map write `m[k] = v`. -/
def aset {α β : Type} [DecidableEq α] : List (α × β) → α → β → List (α × β)
  | [], k, v => [(k, v)]
  | (k', v') :: rest, k, v =>
    if k' = k then (k', v) :: rest else (k', v') :: aset rest k v

/-- `StepDefinition` from internal/workflow/parser.go. -/
structure StepDefinition where
  name : String
  run : String
  uses : String
  env : List (List Char × List Char)
deriving DecidableEq

/-- `JobDefinition` from internal/workflow/parser.go (`Needs` already normalized
to a list by `JobNeeds.UnmarshalYAML`). -/
structure JobDefinition where
  runsOn : String
  needs : List String
  env : List (List Char × List Char)
  steps : List StepDefinition
deriving DecidableEq

/-- `WorkflowDefinition` from internal/workflow/parser.go; the `jobs` map is an
association list (Go map with an iteration order). The `on` trigger map is
never read by the core and is omitted. -/
structure WorkflowDefinition where
  name : String
  env : List (List Char × List Char)
  jobs : List (String × JobDefinition)
deriving DecidableEq

/-- The validation part of `Parser.Parse` (YAML decoding itself is external). -/
def Parse (w : WorkflowDefinition) : Except String WorkflowDefinition :=
  if w.name = "" then .error "workflow name is required"
  else if w.jobs.length = 0 then .error "workflow must contain at least one job"
  else .ok w

/-- Inner loop of the graph-building phase of `BuildExecutionPlan`: for one job,
validate each `needs` entry and append the job to the dependency's adjacency
list (`graph[dependency] = append(graph[dependency], jobID)`). -/
def addDeps (jobs : List (String × JobDefinition)) (jobID : String) :
    List String → List (String × List String) →
    Except String (List (String × List String))
  | [], g => .ok g
  | dep :: rest, g =>
    if (alookup jobs dep).isSome then
      addDeps jobs jobID rest (aset g dep (((alookup g dep).getD []) ++ [jobID]))
    else
      .error ("job " ++ jobID ++ " depends on non-existent job " ++ dep)

/-- Graph-building phase of `BuildExecutionPlan`: iterate the jobs map, record
`inDegree[jobID] = len(needs)` and add one edge dependency→dependent per
`needs` entry. -/
def buildGraphDeg (jobs : List (String × JobDefinition)) :
    List (String × JobDefinition) → List (String × List String) →
    List (String × Int) →
    Except String (List (String × List String) × List (String × Int))
  | [], g, deg => .ok (g, deg)
  | (jobID, job) :: rest, g, deg =>
    match addDeps jobs jobID job.needs g with
    | .error e => .error e
    | .ok g' => buildGraphDeg jobs rest g' (aset deg jobID (Int.ofNat job.needs.length))

/-- `inDegree[dependent]--` (a Go decrement on a map of signed ints; a missing
key reads as 0 and the decremented value is stored). -/
def decKey : List (String × Int) → String → List (String × Int)
  | [], k => [(k, -1)]
  | (k', v) :: rest, k =>
    if k' = k then (k', v - 1) :: rest else (k', v) :: decKey rest k

/-- Inner loop of Kahn's algorithm: decrement each dependent's in-degree and
enqueue it exactly when the decrement makes the in-degree 0. -/
def processDependents : List String → List (String × Int) → List String →
    List (String × Int) × List String
  | [], deg, queue => (deg, queue)
  | d :: ds, deg, queue =>
    let deg' := decKey deg d
    processDependents ds deg' (if alookup deg' d = some 0 then queue ++ [d] else queue)

/-- Σ of the positive parts of the in-degrees; decreases at every enqueue. -/
def degWeight (deg : List (String × Int)) : Nat :=
  (deg.map (fun p => p.2.toNat)).sum

/-- Termination measure of the Kahn loop. -/
def kahnMeasure (queue : List String) (deg : List (String × Int)) : Nat :=
  queue.length + degWeight deg

theorem alookup_decKey (deg : List (String × Int)) (d k : String) :
    alookup (decKey deg d) k =
      if k = d then some (((alookup deg d).getD 0) - 1) else alookup deg k := by
  induction deg with
  | nil =>
    by_cases h : k = d
    · subst h; simp [decKey, alookup]
    · show alookup [(d, -1)] k = if k = d then _ else alookup [] k
      rw [if_neg h]
      show (if d = k then some (-1) else alookup [] k) = alookup [] k
      rw [if_neg (fun hh => h hh.symm)]
  | cons p rest ih =>
    obtain ⟨k', v⟩ := p
    show alookup (if k' = d then (k', v - 1) :: rest else (k', v) :: decKey rest d) k = _
    by_cases h1 : k' = d
    · rw [if_pos h1]
      by_cases h2 : k = d
      · have h3 : k' = k := h1.trans h2.symm
        show (if k' = k then some (v - 1) else alookup rest k) = _
        rw [if_pos h3, if_pos h2]
        show _ = some ((if k' = d then some v else alookup rest d).getD 0 - 1)
        rw [if_pos h1, Option.getD_some]
      · have h3 : ¬ k' = k := fun hh => h2 ((hh.symm.trans h1))
        show (if k' = k then some (v - 1) else alookup rest k) = _
        rw [if_neg h3, if_neg h2]
        show _ = if k' = k then some v else alookup rest k
        rw [if_neg h3]
    · rw [if_neg h1]
      show (if k' = k then some v else alookup (decKey rest d) k) = _
      by_cases h2 : k' = k
      · rw [if_pos h2]
        have h3 : ¬ k = d := fun hh => h1 (h2.trans hh)
        rw [if_neg h3]
        show _ = if k' = k then some v else alookup rest k
        rw [if_pos h2]
      · rw [if_neg h2, ih]
        by_cases h3 : k = d
        · rw [if_pos h3, if_pos h3]
          show _ = some ((if k' = d then some v else alookup rest d).getD 0 - 1)
          rw [if_neg h1]
        · rw [if_neg h3, if_neg h3]
          show _ = if k' = k then some v else alookup rest k
          rw [if_neg h2]

theorem degWeight_decKey_le (deg : List (String × Int)) (d : String) :
    degWeight (decKey deg d) ≤ degWeight deg := by
  induction deg with
  | nil => simp [decKey, degWeight]
  | cons p rest ih =>
    obtain ⟨k', v⟩ := p
    by_cases h : k' = d
    · simp only [decKey, if_pos h, degWeight, List.map_cons, List.sum_cons]
      have hv : (v - 1).toNat ≤ v.toNat := by omega
      omega
    · simp only [decKey, if_neg h, degWeight, List.map_cons, List.sum_cons]
      have hr := ih
      simp only [degWeight] at hr
      omega

theorem degWeight_decKey_lt (deg : List (String × Int)) (d : String)
    (h : alookup (decKey deg d) d = some 0) :
    degWeight (decKey deg d) < degWeight deg := by
  induction deg with
  | nil =>
    simp [decKey, alookup] at h
  | cons p rest ih =>
    obtain ⟨k', v⟩ := p
    rw [alookup_decKey] at h
    rw [if_pos rfl] at h
    by_cases hk : k' = d
    · subst hk
      have hl : alookup ((k', v) :: rest) k' = some v := by
        show (if k' = k' then some v else alookup rest k') = some v
        rw [if_pos rfl]
      rw [hl, Option.getD_some, Option.some.injEq] at h
      simp only [decKey, if_pos rfl, degWeight, List.map_cons, List.sum_cons]
      have hv : v = 1 := by omega
      subst hv
      simp
    · have hl : alookup ((k', v) :: rest) d = alookup rest d := by
        show (if k' = d then some v else alookup rest d) = alookup rest d
        rw [if_neg hk]
      rw [hl] at h
      have hrec : alookup (decKey rest d) d = some 0 := by
        rw [alookup_decKey, if_pos rfl, Option.some.injEq]
        exact Option.some.inj h
      have hr := ih hrec
      simp only [decKey, if_neg hk, degWeight, List.map_cons, List.sum_cons]
      simp only [degWeight] at hr
      omega

theorem kahnMeasure_processDependents (ds : List String) :
    ∀ deg queue,
      kahnMeasure (processDependents ds deg queue).2 (processDependents ds deg queue).1 ≤
        kahnMeasure queue deg := by
  induction ds with
  | nil => intro deg queue; simp [processDependents]
  | cons d ds ih =>
    intro deg queue
    simp only [processDependents]
    by_cases h : alookup (decKey deg d) d = some 0
    · rw [if_pos h]
      refine le_trans (ih _ _) ?_
      have h1 := degWeight_decKey_lt deg d h
      simp only [kahnMeasure, List.length_append, List.length_cons, List.length_nil]
      omega
    · rw [if_neg h]
      refine le_trans (ih _ _) ?_
      have h1 := degWeight_decKey_le deg d
      simp only [kahnMeasure]
      omega

/-- Main loop of Kahn's algorithm with explicit fuel (structural recursion so
that concrete plans evaluate): dequeue, append to the result, decrement
dependents' in-degrees, enqueue new zero-in-degree jobs. -/
def kahnLoopF (graph : List (String × List String)) :
    Nat → List String → List (String × Int) → List String
  | 0, _, _ => []
  | _ + 1, [], _ => []
  | fuel + 1, current :: rest, deg =>
    current ::
      kahnLoopF graph fuel
        (processDependents ((alookup graph current).getD []) deg rest).2
        (processDependents ((alookup graph current).getD []) deg rest).1

/-- Main loop of Kahn's algorithm in `BuildExecutionPlan`; `kahnMeasure` fuel
provably suffices for the loop to run until the queue is empty, so this is the
exact (terminating) Go loop. -/
def kahnLoop (graph : List (String × List String))
    (queue : List String) (deg : List (String × Int)) : List String :=
  kahnLoopF graph (kahnMeasure queue deg) queue deg

theorem kahnLoopF_fuel_irrel (graph : List (String × List String)) :
    ∀ fuel₁ fuel₂ queue deg, kahnMeasure queue deg ≤ fuel₁ →
      kahnMeasure queue deg ≤ fuel₂ →
      kahnLoopF graph fuel₁ queue deg = kahnLoopF graph fuel₂ queue deg := by
  intro fuel₁
  induction fuel₁ with
  | zero =>
    intro fuel₂ queue deg h1 _
    match queue with
    | [] =>
      match fuel₂ with
      | 0 => rfl
      | _ + 1 => rfl
    | q :: rest => simp [kahnMeasure] at h1
  | succ f ih =>
    intro fuel₂ queue deg h1 h2
    match queue with
    | [] =>
      match fuel₂ with
      | 0 => rfl
      | _ + 1 => rfl
    | current :: rest =>
      match fuel₂ with
      | 0 => simp [kahnMeasure] at h2
      | g + 1 =>
        simp only [kahnLoopF, List.cons.injEq, true_and]
        have hm := kahnMeasure_processDependents ((alookup graph current).getD []) deg rest
        have hq : kahnMeasure (current :: rest) deg = kahnMeasure rest deg + 1 := by
          simp [kahnMeasure]; omega
        exact ih g _ _ (by omega) (by omega)

theorem kahnLoop_nil (graph : List (String × List String)) (deg : List (String × Int)) :
    kahnLoop graph [] deg = [] := by
  unfold kahnLoop
  match h : kahnMeasure [] deg with
  | 0 => rfl
  | _ + 1 => rfl

theorem kahnLoop_cons (graph : List (String × List String)) (current : String)
    (rest : List String) (deg : List (String × Int)) :
    kahnLoop graph (current :: rest) deg =
      current ::
        kahnLoop graph
          (processDependents ((alookup graph current).getD []) deg rest).2
          (processDependents ((alookup graph current).getD []) deg rest).1 := by
  unfold kahnLoop
  have hq : kahnMeasure (current :: rest) deg = kahnMeasure rest deg + 1 := by
    simp [kahnMeasure]; omega
  rw [hq]
  simp only [kahnLoopF, List.cons.injEq, true_and]
  have hm := kahnMeasure_processDependents ((alookup graph current).getD []) deg rest
  exact kahnLoopF_fuel_irrel graph _ _ _ _ (by omega) (by omega)

/-- `WorkflowDefinition.BuildExecutionPlan` from internal/workflow/parser.go. -/
def BuildExecutionPlan (w : WorkflowDefinition) : Except String (List String) :=
  if w.jobs.length = 0 then .error "no jobs found in workflow"
  else
    match buildGraphDeg w.jobs w.jobs [] [] with
    | .error e => .error e
    | .ok (graph, inDegree) =>
      if (kahnLoop graph ((inDegree.filter (fun p => p.2 = 0)).map Prod.fst) inDegree).length
          = w.jobs.length then
        .ok (kahnLoop graph ((inDegree.filter (fun p => p.2 = 0)).map Prod.fst) inDegree)
      else
        .error "circular dependency detected in workflow jobs"

/-! ### Correctness development for `BuildExecutionPlan` -/

/-- Adjacency list of a dependency in the built graph. -/
def adjOf (g : List (String × List String)) (d : String) : List String :=
  (alookup g d).getD []

/-- Closed form of the adjacency list built by the graph phase: one entry
`jobID` per occurrence of `d` in that job's `needs`, in jobs-map order. -/
def adjSpec (J : List (String × JobDefinition)) (d : String) : List String :=
  J.flatMap (fun p => (p.2.needs.filter (fun y => decide (y = d))).map (fun _ => p.1))

/-- Declared needs of a job id (empty for an unknown id). -/
def needsOf (J : List (String × JobDefinition)) (j : String) : List String :=
  ((alookup J j).map JobDefinition.needs).getD []

/-- Needs that are not yet emitted into the result prefix `P`. -/
def pending (J : List (String × JobDefinition)) (P : List String) (j : String) : Nat :=
  (needsOf J j).countP (fun d => decide (d ∉ P))

/-- Every `needs` entry references an existing job id. -/
def validDeps (J : List (String × JobDefinition)) : Prop :=
  ∀ p ∈ J, ∀ d ∈ p.2.needs, d ∈ J.map Prod.fst

/-- `needsRel J a b` holds when job `a` declares `b` in its `needs`. -/
def needsRel (J : List (String × JobDefinition)) (a b : String) : Prop :=
  ∃ p, p ∈ J ∧ p.1 = a ∧ b ∈ p.2.needs

/-- The `needs` edges form a DAG: no job depends (transitively) on itself. -/
def Acyclic (J : List (String × JobDefinition)) : Prop :=
  ∀ j, ¬ Relation.TransGen (needsRel J) j j

theorem alookup_aset_self {α β : Type} [DecidableEq α] (l : List (α × β)) (k : α) (v : β) :
    alookup (aset l k v) k = some v := by
  induction l with
  | nil => simp [aset, alookup]
  | cons p rest ih =>
    obtain ⟨k', v'⟩ := p
    by_cases h : k' = k
    · simp [aset, alookup, h]
    · simp [aset, alookup, h, ih]

theorem alookup_aset_ne {α β : Type} [DecidableEq α] (l : List (α × β)) (k k' : α) (v : β)
    (h : ¬ k' = k) : alookup (aset l k v) k' = alookup l k' := by
  induction l with
  | nil => simp [aset, alookup, Ne.symm h]
  | cons p rest ih =>
    obtain ⟨k₀, v₀⟩ := p
    by_cases h0 : k₀ = k
    · subst h0
      have hne : ¬ k₀ = k' := Ne.symm h
      simp [aset, alookup, hne]
    · simp [aset, alookup, h0, ih]

theorem alookup_eq_none {α β : Type} [DecidableEq α] (l : List (α × β)) (k : α)
    (h : k ∉ l.map Prod.fst) : alookup l k = none := by
  induction l with
  | nil => rfl
  | cons p rest ih =>
    obtain ⟨k', v⟩ := p
    simp only [List.map_cons, List.mem_cons, not_or] at h
    simp [alookup, Ne.symm h.1, ih h.2]

theorem alookup_isSome_iff {α β : Type} [DecidableEq α] (l : List (α × β)) (k : α) :
    (alookup l k).isSome ↔ k ∈ l.map Prod.fst := by
  induction l with
  | nil => simp [alookup]
  | cons p rest ih =>
    obtain ⟨k', v⟩ := p
    by_cases h : k' = k
    · subst h; simp [alookup]
    · simp only [alookup, if_neg h, List.map_cons, List.mem_cons]
      rw [ih]
      constructor
      · exact fun hm => Or.inr hm
      · rintro (hh | hm)
        · exact absurd hh.symm h
        · exact hm

theorem alookup_mem {α β : Type} [DecidableEq α] (l : List (α × β)) (k : α) (v : β)
    (h : alookup l k = some v) : (k, v) ∈ l := by
  induction l with
  | nil => simp [alookup] at h
  | cons p rest ih =>
    obtain ⟨k', v'⟩ := p
    by_cases h0 : k' = k
    · subst h0
      have hv : some v' = some v := by rw [← h]; simp [alookup]
      cases hv
      exact List.mem_cons_self _ _
    · rw [show alookup ((k', v') :: rest) k = alookup rest k from by simp [alookup, h0]] at h
      exact List.mem_cons_of_mem _ (ih h)

theorem aset_fresh {α β : Type} [DecidableEq α] (l : List (α × β)) (k : α) (v : β)
    (h : k ∉ l.map Prod.fst) : aset l k v = l ++ [(k, v)] := by
  induction l with
  | nil => rfl
  | cons p rest ih =>
    obtain ⟨k', v'⟩ := p
    simp only [List.map_cons, List.mem_cons, not_or] at h
    simp [aset, Ne.symm h.1, ih h.2]

theorem filter_map_const_replicate (l : List String) (x : String) (c : String) :
    (l.filter (fun y => decide (y = x))).map (fun _ => c) =
      List.replicate (l.count x) c := by
  induction l with
  | nil => simp
  | cons a rest ih =>
    by_cases h : a = x
    · subst h
      simp [List.filter_cons, List.count_cons, ih, List.replicate_succ]
    · simp [List.filter_cons, List.count_cons, h, ih]

theorem adjOf_aset_append (g : List (String × List String)) (dep j x : String) :
    adjOf (aset g dep (adjOf g dep ++ [j])) x =
      if x = dep then adjOf g x ++ [j] else adjOf g x := by
  by_cases h : x = dep
  · subst h; simp [adjOf, alookup_aset_self]
  · simp [adjOf, alookup_aset_ne _ _ _ _ h, h]

theorem addDeps_ok (jobs : List (String × JobDefinition)) (jobID : String) :
    ∀ (needs : List String) (g : List (String × List String)),
      (∀ d ∈ needs, (alookup jobs d).isSome) →
      ∃ g', addDeps jobs jobID needs g = .ok g' ∧
        ∀ x, adjOf g' x = adjOf g x ++ List.replicate (needs.count x) jobID := by
  intro needs
  induction needs with
  | nil =>
    intro g _
    exact ⟨g, rfl, fun x => by simp [addDeps]⟩
  | cons d rest ih =>
    intro g hv
    have hd : (alookup jobs d).isSome := hv d (List.mem_cons_self _ _)
    obtain ⟨g', hok, hadj⟩ :=
      ih (aset g d (((alookup g d).getD []) ++ [jobID]))
        (fun x hx => hv x (List.mem_cons_of_mem _ hx))
    refine ⟨g', ?_, ?_⟩
    · simp [addDeps, hd, hok]
    · intro x
      rw [hadj x]
      have := adjOf_aset_append g d jobID x
      rw [show (((alookup g d).getD []) ++ [jobID]) = adjOf g d ++ [jobID] from rfl, this]
      by_cases h : x = d
      · subst h
        simp [List.count_cons, List.replicate_succ, List.replicate_succ']
      · simp [h, List.count_cons]

theorem addDeps_err (jobs : List (String × JobDefinition)) (jobID : String) :
    ∀ (needs : List String) (g : List (String × List String)) (g' : List (String × List String)),
      addDeps jobs jobID needs g = .ok g' → ∀ d ∈ needs, (alookup jobs d).isSome := by
  intro needs
  induction needs with
  | nil => intro g g' _ d hd; simp at hd
  | cons d rest ih =>
    intro g g' hok x hx
    by_cases hd : (alookup jobs d).isSome
    · simp only [addDeps, if_pos hd] at hok
      rcases List.mem_cons.mp hx with h | h
      · subst h; exact hd
      · exact ih _ _ hok x h
    · simp [addDeps, if_neg hd] at hok

theorem buildGraphDeg_spec (jobs : List (String × JobDefinition)) :
    ∀ (rest : List (String × JobDefinition)) (g : List (String × List String))
      (deg : List (String × Int)) (g' : List (String × List String)) (deg' : List (String × Int)),
      buildGraphDeg jobs rest g deg = .ok (g', deg') →
      (rest.map Prod.fst).Nodup →
      (∀ k ∈ rest.map Prod.fst, k ∉ deg.map Prod.fst) →
      (∀ x, adjOf g' x = adjOf g x ++ adjSpec rest x) ∧
        deg' = deg ++ rest.map (fun p => (p.1, Int.ofNat p.2.needs.length)) := by
  intro rest
  induction rest with
  | nil =>
    intro g deg g' deg' hok _ _
    simp only [buildGraphDeg] at hok
    obtain ⟨h1, h2⟩ := Prod.mk.injEq _ _ _ _ ▸ (Except.ok.inj hok)
    subst h1; subst h2
    exact ⟨fun x => by simp [adjSpec], by simp⟩
  | cons p rest ih =>
    obtain ⟨jobID, job⟩ := p
    intro g deg g' deg' hok hnd hfresh
    simp only [buildGraphDeg] at hok
    match haddeq : addDeps jobs jobID job.needs g with
    | .error e => rw [haddeq] at hok; exact absurd hok (by simp)
    | .ok g₁ =>
      rw [haddeq] at hok
      simp only at hok
      have hvd := addDeps_err jobs jobID job.needs g g₁ haddeq
      obtain ⟨g₂, hok₁, hadj₁⟩ := addDeps_ok jobs jobID job.needs g hvd
      rw [haddeq] at hok₁
      have hg12 : g₁ = g₂ := Except.ok.inj hok₁
      subst hg12
      simp only [List.map_cons, List.nodup_cons] at hnd
      have hfresh₀ : jobID ∉ deg.map Prod.fst :=
        hfresh jobID (by simp)
      have hset : aset deg jobID (Int.ofNat job.needs.length) =
          deg ++ [(jobID, Int.ofNat job.needs.length)] := aset_fresh _ _ _ hfresh₀
      rw [hset] at hok
      have hfresh' : ∀ k ∈ rest.map Prod.fst,
          k ∉ (deg ++ [(jobID, Int.ofNat job.needs.length)]).map Prod.fst := by
        intro k hk
        simp only [List.map_append, List.mem_append, List.map_cons, List.map_nil,
          List.mem_singleton, not_or]
        refine ⟨hfresh k (by simp [hk]), ?_⟩
        intro hkj
        exact hnd.1 (hkj ▸ hk)
      obtain ⟨hadj₂, hdeg₂⟩ := ih _ _ _ _ hok hnd.2 hfresh'
      constructor
      · intro x
        rw [hadj₂ x, hadj₁ x]
        simp only [adjSpec, List.flatMap_cons, List.append_assoc]
        rw [filter_map_const_replicate]
      · rw [hdeg₂]
        simp

theorem alookup_of_mem_nodup {α β : Type} [DecidableEq α] (l : List (α × β))
    (hnd : (l.map Prod.fst).Nodup) (k : α) (v : β) (h : (k, v) ∈ l) :
    alookup l k = some v := by
  induction l with
  | nil => simp at h
  | cons p rest ih =>
    obtain ⟨k', v'⟩ := p
    simp only [List.map_cons, List.nodup_cons] at hnd
    rcases List.mem_cons.mp h with h0 | h0
    · cases h0
      simp [alookup]
    · have hk : ¬ k' = k := by
        intro hh
        subst hh
        exact hnd.1 (List.mem_map.mpr ⟨(k', v), h0, rfl⟩)
      simp [alookup, hk, ih hnd.2 h0]

theorem countP_append_singleton (l P : List String) (c : String) (hc : c ∉ P) :
    l.countP (fun d => decide (d ∉ P ++ [c])) + l.count c =
      l.countP (fun d => decide (d ∉ P)) := by
  induction l with
  | nil => simp
  | cons a rest ih =>
    rw [List.countP_cons, List.countP_cons, List.count_cons]
    simp only [decide_eq_true_eq, beq_iff_eq]
    by_cases h1 : a ∈ P
    · rw [if_neg (show ¬ a ∉ P ++ [c] from not_not.mpr (List.mem_append_left _ h1)),
        if_neg (not_not.mpr h1),
        if_neg (show ¬ a = c from fun hh => hc (hh ▸ h1))]
      omega
    · by_cases h2 : a = c
      · subst h2
        rw [if_neg (show ¬ a ∉ P ++ [a] from
            not_not.mpr (List.mem_append_right _ (List.mem_singleton.mpr rfl))),
          if_pos h1, if_pos rfl]
        omega
      · rw [if_pos (show a ∉ P ++ [c] by simp [List.mem_append, h1, h2]),
          if_pos h1, if_neg h2]
        omega

theorem pending_append_cur (J : List (String × JobDefinition)) (P : List String)
    (c j : String) (hc : c ∉ P) :
    pending J (P ++ [c]) j + (needsOf J j).count c = pending J P j :=
  countP_append_singleton _ _ _ hc

theorem count_le_pending (J : List (String × JobDefinition)) (P : List String)
    (c j : String) (hc : c ∉ P) : (needsOf J j).count c ≤ pending J P j := by
  have := pending_append_cur J P c j hc
  omega

theorem pending_mono (J : List (String × JobDefinition)) (P P' : List String)
    (hsub : ∀ a ∈ P, a ∈ P') (j : String) :
    pending J P' j ≤ pending J P j := by
  refine List.countP_mono_left ?_
  intro a _ h
  simp only [decide_eq_true_eq] at h ⊢
  exact fun hm => h (hsub _ hm)

theorem pending_zero_iff (J : List (String × JobDefinition)) (P : List String) (j : String) :
    pending J P j = 0 ↔ ∀ d ∈ needsOf J j, d ∈ P := by
  unfold pending
  rw [List.countP_eq_zero]
  constructor
  · intro h d hd
    have := h d hd
    simp only [decide_eq_true_eq] at this
    exact not_not.mp this
  · intro h d hd
    simp only [decide_eq_true_eq]
    exact not_not.mpr (h d hd)

theorem decKey_keys (deg : List (String × Int)) (d : String)
    (h : d ∈ deg.map Prod.fst) : (decKey deg d).map Prod.fst = deg.map Prod.fst := by
  induction deg with
  | nil => simp at h
  | cons p rest ih =>
    obtain ⟨k, v⟩ := p
    by_cases h0 : k = d
    · simp [decKey, h0]
    · simp only [List.map_cons, List.mem_cons] at h
      rcases h with h | h
      · exact absurd h.symm h0
      · simp [decKey, h0, ih h]

theorem processDependents_spec :
    ∀ (ds : List String) (deg : List (String × Int)) (q : List String),
      (∀ d ∈ ds, ∃ v, alookup deg d = some v ∧ ((ds.count d : Int) ≤ v)) →
      (∀ j ∈ q, alookup deg j = some 0) →
      q.Nodup →
      (∀ k, alookup (processDependents ds deg q).1 k =
          (alookup deg k).map (fun v => v - (ds.count k : Int))) ∧
      (processDependents ds deg q).1.map Prod.fst = deg.map Prod.fst ∧
      (∀ j, j ∈ (processDependents ds deg q).2 ↔
          (j ∈ q ∨ ∃ v, alookup deg j = some v ∧ 1 ≤ v ∧ v ≤ (ds.count j : Int))) ∧
      (processDependents ds deg q).2.Nodup := by
  intro ds
  induction ds with
  | nil =>
    intro deg q _ _ hqnd
    refine ⟨?_, rfl, ?_, hqnd⟩
    · intro k
      simp only [processDependents, List.count_nil, Int.ofNat_zero, Int.natCast_zero]
      cases alookup deg k <;> simp
    · intro j
      simp only [processDependents, List.count_nil]
      constructor
      · exact fun h => Or.inl h
      · rintro (h | ⟨v, _, h1, h2⟩)
        · exact h
        · exfalso
          have : (0 : Int) < 1 := by omega
          omega
  | cons d ds ih =>
    intro deg q hds hq0 hqnd
    obtain ⟨vd, hvd, hcd⟩ := hds d (List.mem_cons_self _ _)
    have hcdd : (d :: ds).count d = ds.count d + 1 := List.count_cons_self _ _
    have hvd1 : (1 : Int) ≤ vd := by
      rw [hcdd] at hcd
      push_cast at hcd
      omega
    have hdk : ∀ k, alookup (decKey deg d) k =
        if k = d then some (vd - 1) else alookup deg k := by
      intro k
      rw [alookup_decKey]
      by_cases h : k = d
      · simp [h, hvd]
      · simp [h]
    have hdd : alookup (decKey deg d) d = some (vd - 1) := by rw [hdk]; simp
    have hdq : d ∉ q := by
      intro hmem
      have h0 := hq0 d hmem
      rw [h0] at hvd
      have : vd = 0 := by
        have := Option.some.inj hvd
        omega
      omega
    have hdmem : d ∈ deg.map Prod.fst := by
      rw [← alookup_isSome_iff]
      simp [hvd]
    -- the one-step successor state
    have hunfold : processDependents (d :: ds) deg q =
        processDependents ds (decKey deg d)
          (if alookup (decKey deg d) d = some 0 then q ++ [d] else q) := rfl
    by_cases henq : alookup (decKey deg d) d = some 0
    case pos =>
      -- vd = 1; d is enqueued
      have hv1 : vd = 1 := by
        rw [hdd] at henq
        have := Option.some.inj henq
        omega
      rw [hunfold, if_pos henq]
      have hds' : ∀ e ∈ ds, ∃ v, alookup (decKey deg d) e = some v ∧
          ((ds.count e : Int) ≤ v) := by
        intro e he
        by_cases hed : e = d
        · subst hed
          refine ⟨vd - 1, hdd, ?_⟩
          rw [hcdd] at hcd
          push_cast at hcd ⊢
          omega
        · obtain ⟨v, hv, hc⟩ := hds e (List.mem_cons_of_mem _ he)
          refine ⟨v, by rw [hdk, if_neg hed]; exact hv, ?_⟩
          rw [List.count_cons_of_ne hed] at hc
          exact hc
      have hq0' : ∀ j ∈ q ++ [d], alookup (decKey deg d) j = some 0 := by
        intro j hj
        rcases List.mem_append.mp hj with hj | hj
        · have hne : ¬ j = d := fun hh => hdq (hh ▸ hj)
          rw [hdk, if_neg hne]
          exact hq0 j hj
        · rw [List.mem_singleton.mp hj]
          exact henq
      have hqnd' : (q ++ [d]).Nodup := by
        rw [List.nodup_append]
        exact ⟨hqnd, List.nodup_singleton _, by
          intro a ha hb
          rw [List.mem_singleton.mp hb] at ha
          exact hdq ha⟩
      obtain ⟨odeg, okeys, omem, onodup⟩ := ih (decKey deg d) (q ++ [d]) hds' hq0' hqnd'
      refine ⟨?_, ?_, ?_, onodup⟩
      · intro k
        rw [odeg k, hdk k]
        by_cases hk : k = d
        · subst hk
          rw [if_pos rfl, hvd, hcdd]
          show some (vd - 1 - (ds.count k : Int)) = some (vd - ((ds.count k + 1 : Nat) : Int))
          congr 1
          push_cast
          omega
        · rw [if_neg hk, List.count_cons_of_ne hk]
      · rw [okeys, decKey_keys deg d hdmem]
      · intro j
        rw [omem j]
        by_cases hj : j = d
        · subst hj
          simp only [List.mem_append, List.mem_singleton]
          constructor
          · intro _
            refine Or.inr ⟨vd, hvd, hvd1, ?_⟩
            rw [hcdd, hv1] at hcd ⊢
            push_cast at hcd ⊢
            omega
          · intro _
            exact Or.inl (Or.inr trivial)
        · rw [hdk, if_neg hj, List.count_cons_of_ne hj]
          simp only [List.mem_append, List.mem_singleton]
          constructor
          · rintro (⟨h | h⟩ | h)
            · exact Or.inl h
            · exact absurd h hj
            · exact Or.inr h
          · rintro (h | h)
            · exact Or.inl (Or.inl h)
            · exact Or.inr h
    case neg =>
      -- vd ≥ 2; nothing is enqueued at this step
      have hv2 : (2 : Int) ≤ vd := by
        rw [hdd] at henq
        by_contra hlt
        have hveq : vd = 1 := by omega
        exact henq (by rw [hveq]; rfl)
      rw [hunfold, if_neg henq]
      have hds' : ∀ e ∈ ds, ∃ v, alookup (decKey deg d) e = some v ∧
          ((ds.count e : Int) ≤ v) := by
        intro e he
        by_cases hed : e = d
        · subst hed
          refine ⟨vd - 1, hdd, ?_⟩
          rw [hcdd] at hcd
          push_cast at hcd ⊢
          omega
        · obtain ⟨v, hv, hc⟩ := hds e (List.mem_cons_of_mem _ he)
          refine ⟨v, by rw [hdk, if_neg hed]; exact hv, ?_⟩
          rw [List.count_cons_of_ne hed] at hc
          exact hc
      have hq0' : ∀ j ∈ q, alookup (decKey deg d) j = some 0 := by
        intro j hj
        have hne : ¬ j = d := fun hh => hdq (hh ▸ hj)
        rw [hdk, if_neg hne]
        exact hq0 j hj
      obtain ⟨odeg, okeys, omem, onodup⟩ := ih (decKey deg d) q hds' hq0' hqnd
      refine ⟨?_, ?_, ?_, onodup⟩
      · intro k
        rw [odeg k, hdk k]
        by_cases hk : k = d
        · subst hk
          rw [if_pos rfl, hvd, hcdd]
          show some (vd - 1 - (ds.count k : Int)) = some (vd - ((ds.count k + 1 : Nat) : Int))
          congr 1
          push_cast
          omega
        · rw [if_neg hk, List.count_cons_of_ne hk]
      · rw [okeys, decKey_keys deg d hdmem]
      · intro j
        rw [omem j]
        by_cases hj : j = d
        · subst hj
          constructor
          · rintro (h | ⟨v, hv, h1, h2⟩)
            · exact absurd h hdq
            · rw [hdd] at hv
              have hveq : v = vd - 1 := (Option.some.inj hv).symm
              rw [hveq] at h2
              refine Or.inr ⟨vd, hvd, hvd1, ?_⟩
              rw [hcdd]
              push_cast at h2 ⊢
              omega
          · rintro (h | ⟨v, hv, h1, h2⟩)
            · exact absurd h hdq
            · rw [hvd] at hv
              have hveq : v = vd := (Option.some.inj hv).symm
              rw [hveq] at h2
              refine Or.inr ⟨vd - 1, hdd, ?_, ?_⟩
              · omega
              · rw [hcdd] at h2
                push_cast at h2 ⊢
                omega
        · rw [hdk, if_neg hj, List.count_cons_of_ne hj]

theorem adjSpec_cons (p : String × JobDefinition) (rest : List (String × JobDefinition))
    (d : String) :
    adjSpec (p :: rest) d = List.replicate (p.2.needs.count d) p.1 ++ adjSpec rest d := by
  unfold adjSpec
  rw [List.flatMap_cons, filter_map_const_replicate]

theorem mem_adjSpec (J : List (String × JobDefinition)) (d j : String)
    (h : j ∈ adjSpec J d) : j ∈ J.map Prod.fst := by
  unfold adjSpec at h
  rw [List.mem_flatMap] at h
  obtain ⟨p, hp, hj⟩ := h
  rw [List.mem_map] at hj
  obtain ⟨_, _, rfl⟩ := hj
  exact List.mem_map.mpr ⟨p, hp, rfl⟩

theorem count_adjSpec_zero (J : List (String × JobDefinition)) (d j : String)
    (h : j ∉ J.map Prod.fst) : (adjSpec J d).count j = 0 :=
  List.count_eq_zero.mpr (fun hm => h (mem_adjSpec J d j hm))

theorem count_adjSpec (J : List (String × JobDefinition))
    (hnd : (J.map Prod.fst).Nodup) (d j : String) (job : JobDefinition)
    (hl : alookup J j = some job) : (adjSpec J d).count j = job.needs.count d := by
  induction J with
  | nil => simp [alookup] at hl
  | cons p rest ih =>
    obtain ⟨k, jd⟩ := p
    simp only [List.map_cons, List.nodup_cons] at hnd
    rw [adjSpec_cons, List.count_append]
    by_cases hk : k = j
    · subst hk
      have hjob : jd = job := by
        have : alookup ((k, jd) :: rest) k = some jd := by simp [alookup]
        rw [this] at hl
        exact Option.some.inj hl
      subst hjob
      have hrest : (adjSpec rest d).count k = 0 :=
        count_adjSpec_zero rest d k hnd.1
      rw [hrest, List.count_replicate_self]
      simp
    · have hl' : alookup rest j = some job := by
        have : alookup ((k, jd) :: rest) j = alookup rest j := by simp [alookup, hk]
        rw [← this]
        exact hl
      rw [ih hnd.2 hl']
      have hz : (List.replicate ((k, jd).2.needs.count d) (k, jd).1).count j = 0 := by
        refine List.count_eq_zero.mpr ?_
        intro hm
        rw [List.mem_replicate] at hm
        exact hk hm.2.symm
      rw [hz]
      omega

theorem needsOf_eq (J : List (String × JobDefinition)) (j : String) (job : JobDefinition)
    (hl : alookup J j = some job) : needsOf J j = job.needs := by
  unfold needsOf
  rw [hl]
  rfl

/-- The loop invariant of Kahn's algorithm: `P` is the emitted prefix, `q` the
queue and `deg` the current in-degree map. -/
structure KahnInv (J : List (String × JobDefinition)) (P q : List String)
    (deg : List (String × Int)) : Prop where
  keys_eq : deg.map Prod.fst = J.map Prod.fst
  deg_val : ∀ j ∈ J.map Prod.fst, alookup deg j = some ((pending J P j : Nat) : Int)
  nodupPQ : (P ++ q).Nodup
  sub_P : ∀ j ∈ P, j ∈ J.map Prod.fst
  sub_q : ∀ j ∈ q, j ∈ J.map Prod.fst
  complete : ∀ j ∈ J.map Prod.fst, pending J P j = 0 → j ∈ P ++ q
  q_ready : ∀ j ∈ q, pending J P j = 0
  ordered : ∀ (i : Nat) (h : i < P.length), ∀ d ∈ needsOf J (P.get ⟨i, h⟩), d ∈ P.take i

theorem get_append_length {α : Type} (P : List α) (a : α) (rest : List α)
    (h : P.length < (P ++ a :: rest).length) :
    (P ++ a :: rest).get ⟨P.length, h⟩ = a := by
  induction P with
  | nil => rfl
  | cons x xs ih => exact ih (by simp)

theorem inv_mem_P_pending (J : List (String × JobDefinition)) (P q : List String)
    (deg : List (String × Int)) (inv : KahnInv J P q deg) (j : String) (hj : j ∈ P) :
    pending J P j = 0 := by
  rw [List.mem_iff_get] at hj
  obtain ⟨⟨i, hi⟩, rfl⟩ := hj
  rw [pending_zero_iff]
  intro d hd
  exact List.mem_of_mem_take (inv.ordered i hi d hd)

theorem kahnInv_step (J : List (String × JobDefinition))
    (hnd : (J.map Prod.fst).Nodup)
    (g : List (String × List String)) (hg : ∀ x, adjOf g x = adjSpec J x)
    (P : List String) (current : String) (rest : List String) (deg : List (String × Int))
    (inv : KahnInv J P (current :: rest) deg) :
    KahnInv J (P ++ [current])
      (processDependents (adjOf g current) deg rest).2
      (processDependents (adjOf g current) deg rest).1 := by
  have hcur_q : current ∈ current :: rest := List.mem_cons_self _ _
  have hnodup := inv.nodupPQ
  rw [List.nodup_append] at hnodup
  have hcurP : current ∉ P := fun hmem => hnodup.2.2 hmem hcur_q
  have hcur_keys : current ∈ J.map Prod.fst := inv.sub_q current hcur_q
  have hds_eq : adjOf g current = adjSpec J current := hg current
  have hcount : ∀ j ∈ J.map Prod.fst,
      (adjOf g current).count j = (needsOf J j).count current := by
    intro j hj
    rw [← alookup_isSome_iff] at hj
    obtain ⟨job, hjob⟩ := Option.isSome_iff_exists.mp hj
    rw [hds_eq, count_adjSpec J hnd current j job hjob, needsOf_eq J j job hjob]
  have hds_sub : ∀ e ∈ adjOf g current, e ∈ J.map Prod.fst := by
    intro e he
    rw [hds_eq] at he
    exact mem_adjSpec J current e he
  have hpend : ∀ j, pending J (P ++ [current]) j + (needsOf J j).count current =
      pending J P j := fun j => pending_append_cur J P current j hcurP
  have hrest_ready : ∀ j ∈ rest, alookup deg j = some 0 := by
    intro j hj
    have h0 := inv.q_ready j (List.mem_cons_of_mem _ hj)
    have := inv.deg_val j (inv.sub_q j (List.mem_cons_of_mem _ hj))
    rw [h0] at this
    exact this
  have hds_hyp : ∀ e ∈ adjOf g current, ∃ v, alookup deg e = some v ∧
      (((adjOf g current).count e : Nat) : Int) ≤ v := by
    intro e he
    have hek := hds_sub e he
    refine ⟨((pending J P e : Nat) : Int), inv.deg_val e hek, ?_⟩
    rw [hcount e hek]
    have := count_le_pending J P current e hcurP
    omega
  have hqnd : rest.Nodup := (List.nodup_cons.mp hnodup.2.1).2
  obtain ⟨odeg, okeys, omem, onodup⟩ :=
    processDependents_spec (adjOf g current) deg rest hds_hyp hrest_ready hqnd
  -- membership in the new queue, rephrased through `pending`
  have hmem_q' : ∀ j, j ∈ (processDependents (adjOf g current) deg rest).2 ↔
      (j ∈ rest ∨ (j ∈ J.map Prod.fst ∧ 1 ≤ pending J P j ∧
        pending J P j ≤ (needsOf J j).count current)) := by
    intro j
    rw [omem j]
    constructor
    · rintro (h | ⟨v, hv, h1, h2⟩)
      · exact Or.inl h
      · have hjk : j ∈ J.map Prod.fst := by
          rw [← inv.keys_eq, ← alookup_isSome_iff, hv]
          rfl
        have hveq := inv.deg_val j hjk
        rw [hv] at hveq
        have : v = ((pending J P j : Nat) : Int) := Option.some.inj hveq
        subst this
        rw [hcount j hjk] at h2
        refine Or.inr ⟨hjk, ?_, ?_⟩
        · exact_mod_cast h1
        · exact_mod_cast h2
    · rintro (h | ⟨hjk, h1, h2⟩)
      · exact Or.inl h
      · refine Or.inr ⟨((pending J P j : Nat) : Int), inv.deg_val j hjk, ?_, ?_⟩
        · exact_mod_cast h1
        · rw [hcount j hjk]
          exact_mod_cast h2
  have hnotPQ : ∀ j, 1 ≤ pending J P j → j ∉ P ∧ j ≠ current := by
    intro j h1
    constructor
    · intro hmem
      have := inv_mem_P_pending J P (current :: rest) deg inv j hmem
      omega
    · intro hmem
      subst hmem
      have := inv.q_ready j hcur_q
      omega
  refine ⟨?_, ?_, ?_, ?_, ?_, ?_, ?_, ?_⟩
  · rw [okeys]
    exact inv.keys_eq
  · intro j hj
    rw [odeg j, inv.deg_val j hj, hcount j hj]
    show some (((pending J P j : Nat) : Int) - (((needsOf J j).count current : Nat) : Int)) =
      some ((pending J (P ++ [current]) j : Nat) : Int)
    congr 1
    have := hpend j
    omega
  · -- nodup of (P ++ [current]) ++ q'
    rw [List.nodup_append]
    refine ⟨?_, onodup, ?_⟩
    · rw [List.nodup_append]
      refine ⟨hnodup.1, List.nodup_singleton _, ?_⟩
      intro a ha hb
      rw [List.mem_singleton.mp hb] at ha
      exact hcurP ha
    · intro a ha hb
      rw [hmem_q'] at hb
      rcases List.mem_append.mp ha with ha | ha
      · rcases hb with hb | hb
        · exact hnodup.2.2 ha (List.mem_cons_of_mem _ hb)
        · exact (hnotPQ a hb.2.1).1 ha
      · have hac : a = current := List.mem_singleton.mp ha
        rcases hb with hb | hb
        · rw [hac] at hb
          exact (List.nodup_cons.mp hnodup.2.1).1 hb
        · exact (hnotPQ a hb.2.1).2 hac
  · intro j hj
    rcases List.mem_append.mp hj with hj | hj
    · exact inv.sub_P j hj
    · rw [List.mem_singleton.mp hj]
      exact hcur_keys
  · intro j hj
    rw [hmem_q'] at hj
    rcases hj with hj | hj
    · exact inv.sub_q j (List.mem_cons_of_mem _ hj)
    · exact hj.1
  · -- completeness
    intro j hj hp0
    have hpj := hpend j
    by_cases hc0 : (needsOf J j).count current = 0
    · have hp : pending J P j = 0 := by omega
      have := inv.complete j hj hp
      rcases List.mem_append.mp this with hmem | hmem
      · exact List.mem_append_left _ (List.mem_append_left _ hmem)
      · rcases List.mem_cons.mp hmem with hmem | hmem
        · exact List.mem_append_left _ (List.mem_append_right _ (List.mem_singleton.mpr hmem))
        · exact List.mem_append_right _ ((hmem_q' j).mpr (Or.inl hmem))
    · refine List.mem_append_right _ ((hmem_q' j).mpr (Or.inr ⟨hj, ?_, ?_⟩)) <;> omega
  · -- q_ready
    intro j hj
    rw [hmem_q'] at hj
    have hpj := hpend j
    rcases hj with hj | hj
    · have h0 := inv.q_ready j (List.mem_cons_of_mem _ hj)
      have hmono : pending J (P ++ [current]) j ≤ pending J P j :=
        pending_mono J P (P ++ [current]) (fun a ha => List.mem_append_left _ ha) j
      omega
    · have hle := count_le_pending J P current j hcurP
      omega
  · -- ordered
    intro i hi d hd
    rw [List.length_append, List.length_singleton] at hi
    by_cases hiP : i < P.length
    · have hget : (P ++ [current]).get ⟨i, by rw [List.length_append]; omega⟩ =
          P.get ⟨i, hiP⟩ := List.get_append i hiP
      rw [hget] at hd
      have := inv.ordered i hiP d hd
      rw [List.take_append_of_le_length (by omega)]
      exact this
    · have hieq : i = P.length := by omega
      subst hieq
      have hget : (P ++ [current]).get ⟨P.length, by simp⟩ = current :=
        get_append_length P current [] (by simp)
      rw [hget] at hd
      have h0 := inv.q_ready current hcur_q
      rw [pending_zero_iff] at h0
      rw [List.take_append_of_le_length (le_refl _), List.take_length]
      exact h0 d hd

/-- Every job appears strictly after each of its declared needs. -/
def TopoOrdered (J : List (String × JobDefinition)) (R : List String) : Prop :=
  ∀ (i : Nat) (h : i < R.length), ∀ d ∈ needsOf J (R.get ⟨i, h⟩), d ∈ R.take i

theorem kahnLoop_master (J : List (String × JobDefinition))
    (hnd : (J.map Prod.fst).Nodup)
    (g : List (String × List String)) (hg : ∀ x, adjOf g x = adjSpec J x) :
    ∀ (n : Nat) (q : List String) (deg : List (String × Int)) (P : List String),
      kahnMeasure q deg ≤ n → KahnInv J P q deg →
      (((P ++ kahnLoop g q deg).Nodup ∧
        TopoOrdered J (P ++ kahnLoop g q deg) ∧
        (∀ j ∈ J.map Prod.fst, pending J (P ++ kahnLoop g q deg) j = 0 →
            j ∈ P ++ kahnLoop g q deg)) ∧
        (∀ j ∈ kahnLoop g q deg, j ∈ J.map Prod.fst)) := by
  intro n
  induction n with
  | zero =>
    intro q deg P hm inv
    match q with
    | [] =>
      rw [kahnLoop_nil, List.append_nil]
      exact ⟨⟨by simpa using inv.nodupPQ, inv.ordered,
        fun j hj hp => by simpa using inv.complete j hj hp⟩, by simp⟩
    | c :: rest =>
      exfalso
      simp [kahnMeasure] at hm
  | succ m ih =>
    intro q deg P hm inv
    match q with
    | [] =>
      rw [kahnLoop_nil, List.append_nil]
      exact ⟨⟨by simpa using inv.nodupPQ, inv.ordered,
        fun j hj hp => by simpa using inv.complete j hj hp⟩, by simp⟩
    | current :: rest =>
      rw [kahnLoop_cons]
      have inv' := kahnInv_step J hnd g hg P current rest deg inv
      have hm' : kahnMeasure (processDependents ((alookup g current).getD []) deg rest).2
          (processDependents ((alookup g current).getD []) deg rest).1 ≤ m := by
        have h1 := kahnMeasure_processDependents ((alookup g current).getD []) deg rest
        have h2 : kahnMeasure (current :: rest) deg = kahnMeasure rest deg + 1 := by
          simp [kahnMeasure]
          omega
        omega
      have res := ih _ _ (P ++ [current]) hm' inv'
      have hEq : (P ++ [current]) ++
          kahnLoop g (processDependents ((alookup g current).getD []) deg rest).2
            (processDependents ((alookup g current).getD []) deg rest).1 =
          P ++ current ::
            kahnLoop g (processDependents ((alookup g current).getD []) deg rest).2
              (processDependents ((alookup g current).getD []) deg rest).1 := by
        simp
      rw [hEq] at res
      refine ⟨res.1, ?_⟩
      intro j hj
      rcases List.mem_cons.mp hj with hj | hj
      · rw [hj]
        exact inv.sub_q current (List.mem_cons_self _ _)
      · exact res.2 j hj

theorem buildGraphDeg_ok (jobs : List (String × JobDefinition)) :
    ∀ (rest : List (String × JobDefinition)) (g : List (String × List String))
      (deg : List (String × Int)),
      (∀ p ∈ rest, ∀ d ∈ p.2.needs, (alookup jobs d).isSome) →
      ∃ g' deg', buildGraphDeg jobs rest g deg = .ok (g', deg') := by
  intro rest
  induction rest with
  | nil => intro g deg _; exact ⟨g, deg, rfl⟩
  | cons p rest ih =>
    intro g deg hv
    obtain ⟨jobID, job⟩ := p
    obtain ⟨g₁, hok, _⟩ :=
      addDeps_ok jobs jobID job.needs g (hv _ (List.mem_cons_self _ _))
    obtain ⟨g', deg', hrec⟩ :=
      ih g₁ (aset deg jobID (Int.ofNat job.needs.length))
        (fun p hp => hv p (List.mem_cons_of_mem _ hp))
    refine ⟨g', deg', ?_⟩
    simp only [buildGraphDeg, hok]
    exact hrec

theorem pending_nil_eq (J : List (String × JobDefinition)) (j : String) :
    pending J [] j = (needsOf J j).length := by
  unfold pending
  rw [List.countP_eq_length]
  intro a _
  simp

theorem alookup_map_pair {β : Type} (f : String → JobDefinition → β) :
    ∀ (J : List (String × JobDefinition)) (j : String),
      alookup (J.map (fun p => (p.1, f p.1 p.2))) j =
        Option.map (fun jd => f j jd) (alookup J j) := by
  intro J
  induction J with
  | nil => intro j; rfl
  | cons p rest ih =>
    intro j
    obtain ⟨k, jd⟩ := p
    by_cases h : k = j
    · subst h
      simp [alookup]
    · simp [alookup, h, ih]

theorem kahnInv_init (J : List (String × JobDefinition))
    (hnd : (J.map Prod.fst).Nodup)
    (deg : List (String × Int))
    (hdeg : deg = J.map (fun p => (p.1, Int.ofNat p.2.needs.length))) :
    KahnInv J [] ((deg.filter (fun p => p.2 = 0)).map Prod.fst) deg := by
  have hkeys : deg.map Prod.fst = J.map Prod.fst := by
    rw [hdeg, List.map_map]
    rfl
  have hval : ∀ j, alookup deg j =
      Option.map (fun jd => Int.ofNat jd.needs.length) (alookup J j) := by
    intro j
    rw [hdeg]
    exact alookup_map_pair (fun _ jd => Int.ofNat jd.needs.length) J j
  have hdeg_val : ∀ j ∈ J.map Prod.fst,
      alookup deg j = some ((pending J [] j : Nat) : Int) := by
    intro j hj
    rw [← alookup_isSome_iff] at hj
    obtain ⟨job, hjob⟩ := Option.isSome_iff_exists.mp hj
    rw [hval j, hjob, pending_nil_eq, needsOf_eq J j job hjob]
    rfl
  have hq_sub : ∀ j ∈ (deg.filter (fun p => p.2 = 0)).map Prod.fst,
      j ∈ J.map Prod.fst := by
    intro j hj
    rw [List.mem_map] at hj
    obtain ⟨p, hp, rfl⟩ := hj
    rw [← hkeys]
    exact List.mem_map.mpr ⟨p, List.mem_of_mem_filter hp, rfl⟩
  have hq_nodup : ((deg.filter (fun p => p.2 = 0)).map Prod.fst).Nodup := by
    have hsub : List.Sublist ((deg.filter (fun p => p.2 = 0)).map Prod.fst)
        (deg.map Prod.fst) :=
      (List.filter_sublist _).map Prod.fst
    exact hsub.nodup (hkeys ▸ hnd)
  refine ⟨hkeys, hdeg_val, by simpa using hq_nodup, by simp, hq_sub, ?_, ?_, ?_⟩
  · -- complete
    intro j hj hp
    rw [pending_nil_eq] at hp
    have h0 := hdeg_val j hj
    rw [pending_nil_eq, hp] at h0
    have hm := alookup_mem deg j _ h0
    refine List.mem_append_right _ (List.mem_map.mpr ⟨(j, ((0 : Nat) : Int)), ?_, rfl⟩)
    rw [List.mem_filter]
    exact ⟨hm, by simp⟩
  · -- q_ready
    intro j hj
    rw [List.mem_map] at hj
    obtain ⟨p, hp, rfl⟩ := hj
    rw [List.mem_filter] at hp
    have hl : alookup deg p.1 = some p.2 :=
      alookup_of_mem_nodup deg (hkeys ▸ hnd) p.1 p.2 hp.1
    have hval := hdeg_val p.1 (hq_sub p.1 (List.mem_map.mpr ⟨p, by
      rw [List.mem_filter]; exact hp, rfl⟩))
    rw [hl] at hval
    have h2 : p.2 = 0 := by
      have := hp.2
      simpa using this
    rw [h2] at hval
    have := Option.some.inj hval
    omega
  · -- ordered (vacuous)
    intro i hi
    simp at hi

theorem mem_take_indexOf_lt {α : Type} [DecidableEq α] :
    ∀ (R : List α) (i : Nat) (b : α), b ∈ R.take i → R.indexOf b < i := by
  intro R
  induction R with
  | nil => intro i b h; simp at h
  | cons x rest ih =>
    intro i b h
    match i with
    | 0 => simp at h
    | i + 1 =>
      rw [List.take_succ_cons] at h
      by_cases hx : x = b
      · subst hx
        rw [List.indexOf_cons_self]
        omega
      · rcases List.mem_cons.mp h with h | h
        · exact absurd h.symm hx
        · rw [List.indexOf_cons_ne _ hx]
          have := ih i b h
          omega

theorem topo_indexOf_lt (J : List (String × JobDefinition)) (R : List String)
    (hord : TopoOrdered J R) (a d : String) (ha : a ∈ R) (hd : d ∈ needsOf J a) :
    R.indexOf d < R.indexOf a := by
  have hlen : R.indexOf a < R.length := List.indexOf_lt_length.mpr ha
  have hget : R.get ⟨R.indexOf a, hlen⟩ = a := List.indexOf_get hlen
  have hd' : d ∈ needsOf J (R.get ⟨R.indexOf a, hlen⟩) := by rw [hget]; exact hd
  exact mem_take_indexOf_lt R _ d (hord (R.indexOf a) hlen d hd')

theorem no_cycle_of_topo (J : List (String × JobDefinition))
    (hnd : (J.map Prod.fst).Nodup) (_hv : validDeps J) (R : List String)
    (hord : TopoOrdered J R) (hall : ∀ j ∈ J.map Prod.fst, j ∈ R) :
    ∀ j, ¬ Relation.TransGen (needsRel J) j j := by
  have hstep : ∀ a b, needsRel J a b → R.indexOf b < R.indexOf a := by
    intro a b hrel
    obtain ⟨p, hp, hpa, hb⟩ := hrel
    have hak : a ∈ J.map Prod.fst := List.mem_map.mpr ⟨p, hp, hpa⟩
    have hlp : alookup J a = some p.2 := by
      have := alookup_of_mem_nodup J hnd p.1 p.2 (by
        rcases p with ⟨p1, p2⟩
        exact hp)
      rw [hpa] at this
      exact this
    have hdmem : b ∈ needsOf J a := by
      rw [needsOf_eq J a p.2 hlp]
      exact hb
    exact topo_indexOf_lt J R hord a b (hall a hak) hdmem
  have hchain : ∀ a b, Relation.TransGen (needsRel J) a b →
      R.indexOf b < R.indexOf a := by
    intro a b h
    induction h with
    | single h => exact hstep _ _ h
    | tail _ h2 ih =>
      have := hstep _ _ h2
      omega
  intro j hcyc
  exact absurd (hchain j j hcyc) (lt_irrefl _)

theorem exists_cycle_of_all_have_pred (S : List String) (hne : S ≠ [])
    (r : String → String → Prop)
    (h : ∀ j ∈ S, ∃ d, d ∈ S ∧ r j d) :
    ∃ j, Relation.TransGen r j j := by
  classical
  let f : {a : String // a ∈ S} → {a : String // a ∈ S} :=
    fun a => ⟨(h a.1 a.2).choose, (h a.1 a.2).choose_spec.1⟩
  have hf : ∀ a : {a : String // a ∈ S}, r a.1 (f a).1 :=
    fun a => (h a.1 a.2).choose_spec.2
  let x0 : {a : String // a ∈ S} := ⟨S.head hne, List.head_mem hne⟩
  let seq : Nat → {a : String // a ∈ S} := fun n => f^[n] x0
  have hseq : ∀ n, seq (n + 1) = f (seq n) := fun n =>
    Function.iterate_succ_apply' f n x0
  have hchain : ∀ m k, Relation.TransGen r (seq m).1 (seq (m + k + 1)).1 := by
    intro m k
    induction k with
    | zero =>
      rw [show m + 0 + 1 = m + 1 from rfl, hseq m]
      exact Relation.TransGen.single (hf (seq m))
    | succ k ih =>
      rw [show m + (k + 1) + 1 = (m + k + 1) + 1 by omega, hseq (m + k + 1)]
      exact Relation.TransGen.tail ih (hf (seq (m + k + 1)))
  have hcard : S.toFinset.card < (Finset.range (S.length + 1)).card := by
    rw [Finset.card_range]
    exact Nat.lt_succ_of_le S.toFinset_card_le
  obtain ⟨m, _, n, _, hmn, heq⟩ :=
    Finset.exists_ne_map_eq_of_card_lt_of_maps_to hcard
      (fun n _ => List.mem_toFinset.mpr (seq n).2)
  rcases Nat.lt_or_ge m n with hlt | hge
  · obtain ⟨k, rfl⟩ : ∃ k, n = m + k + 1 := ⟨n - m - 1, by omega⟩
    refine ⟨(seq m).1, ?_⟩
    have hc := hchain m k
    rw [← heq] at hc
    exact hc
  · have hlt' : n < m := by omega
    obtain ⟨k, rfl⟩ : ∃ k, m = n + k + 1 := ⟨m - n - 1, by omega⟩
    refine ⟨(seq n).1, ?_⟩
    have hc := hchain n k
    rw [heq] at hc
    exact hc

theorem all_mem_of_complete (J : List (String × JobDefinition))
    (hv : validDeps J) (R : List String)
    (hcomp : ∀ j ∈ J.map Prod.fst, pending J R j = 0 → j ∈ R)
    (hacyc : Acyclic J) : ∀ j ∈ J.map Prod.fst, j ∈ R := by
  by_contra hx
  push_neg at hx
  obtain ⟨j0, hj0k, hj0R⟩ := hx
  have hS_ne : (J.map Prod.fst).filter (fun a => decide (a ∉ R)) ≠ [] := by
    refine List.ne_nil_of_mem (l := _) (a := j0) ?_
    rw [List.mem_filter]
    exact ⟨hj0k, by simpa using hj0R⟩
  have hpred : ∀ a ∈ (J.map Prod.fst).filter (fun a => decide (a ∉ R)),
      ∃ d, d ∈ (J.map Prod.fst).filter (fun a => decide (a ∉ R)) ∧ needsRel J a d := by
    intro a ha
    rw [List.mem_filter] at ha
    have hak : a ∈ J.map Prod.fst := ha.1
    have haR : a ∉ R := by simpa using ha.2
    have hp : pending J R a ≠ 0 := fun h0 => haR (hcomp a hak h0)
    have hex : ∃ d ∈ needsOf J a, d ∉ R := by
      by_contra hall
      push_neg at hall
      exact hp ((pending_zero_iff _ _ _).mpr hall)
    obtain ⟨d, hd, hdR⟩ := hex
    have hak' : (alookup J a).isSome := (alookup_isSome_iff J a).mpr hak
    obtain ⟨job, hjob⟩ := Option.isSome_iff_exists.mp hak'
    rw [needsOf_eq J a job hjob] at hd
    have hdk : d ∈ J.map Prod.fst := hv (a, job) (alookup_mem J a job hjob) d hd
    refine ⟨d, ?_, ⟨(a, job), alookup_mem J a job hjob, rfl, hd⟩⟩
    rw [List.mem_filter]
    exact ⟨hdk, by simpa using hdR⟩
  obtain ⟨j, hcyc⟩ :=
    exists_cycle_of_all_have_pred _ hS_ne (needsRel J) hpred
  exact hacyc j hcyc

theorem buildExecutionPlan_success (w : WorkflowDefinition)
    (hne : w.jobs ≠ []) (hnd : (w.jobs.map Prod.fst).Nodup) (hv : validDeps w.jobs) :
    ∃ R, BuildExecutionPlan w =
        (if R.length = w.jobs.length then .ok R
         else .error "circular dependency detected in workflow jobs") ∧
      R.Nodup ∧ TopoOrdered w.jobs R ∧ (∀ j ∈ R, j ∈ w.jobs.map Prod.fst) ∧
      (∀ j ∈ w.jobs.map Prod.fst, pending w.jobs R j = 0 → j ∈ R) := by
  have hvs : ∀ p ∈ w.jobs, ∀ d ∈ p.2.needs, (alookup w.jobs d).isSome := by
    intro p hp d hd
    rw [alookup_isSome_iff]
    exact hv p hp d hd
  obtain ⟨g, deg, hok⟩ := buildGraphDeg_ok w.jobs w.jobs [] [] hvs
  obtain ⟨hadj, hdeg⟩ := buildGraphDeg_spec w.jobs w.jobs [] [] g deg hok hnd (by simp)
  have hadj' : ∀ x, adjOf g x = adjSpec w.jobs x := by
    intro x
    have := hadj x
    simpa [adjOf, alookup] using this
  have hdeg' : deg = w.jobs.map (fun p => (p.1, Int.ofNat p.2.needs.length)) := by
    simpa using hdeg
  have hinv := kahnInv_init w.jobs hnd deg hdeg'
  obtain ⟨⟨hnodup, hord, hcomp⟩, hsub⟩ :=
    kahnLoop_master w.jobs hnd g hadj'
      (kahnMeasure ((deg.filter (fun p => p.2 = 0)).map Prod.fst) deg)
      ((deg.filter (fun p => p.2 = 0)).map Prod.fst) deg [] (le_refl _) hinv
  simp only [List.nil_append] at hnodup hord hcomp
  refine ⟨kahnLoop g ((deg.filter (fun p => p.2 = 0)).map Prod.fst) deg,
    ?_, hnodup, hord, hsub, hcomp⟩
  unfold BuildExecutionPlan
  rw [if_neg (fun h => hne (List.length_eq_zero.mp h)), hok]

/-- **C1.** For every workflow with a well-formed job map (nonempty, unique
job-ids) whose `needs` edges reference existing job-ids and form a DAG,
`BuildExecutionPlan` returns a sequence that is a permutation of the
workflow's job-ids in which every job appears strictly after each job listed
in its `needs` (the job at position `i` has all its needs in the prefix of
the first `i` entries). -/
theorem c1_plan_is_topological_permutation (w : WorkflowDefinition)
    (hne : w.jobs ≠ []) (hnd : (w.jobs.map Prod.fst).Nodup)
    (hv : validDeps w.jobs) (hacyc : Acyclic w.jobs) :
    ∃ R, BuildExecutionPlan w = .ok R ∧ R.Perm (w.jobs.map Prod.fst) ∧
      TopoOrdered w.jobs R := by
  obtain ⟨R, hplan, hnodup, hord, hsub, hcomp⟩ := buildExecutionPlan_success w hne hnd hv
  have hall : ∀ j ∈ w.jobs.map Prod.fst, j ∈ R :=
    all_mem_of_complete w.jobs hv R hcomp hacyc
  have hperm : R.Perm (w.jobs.map Prod.fst) := by
    refine List.Subperm.antisymm ?_ ?_
    · exact List.subperm_of_subset hnodup (fun a ha => hsub a ha)
    · exact List.subperm_of_subset hnd (fun a ha => hall a ha)
  have hlen : R.length = w.jobs.length := by
    have := hperm.length_eq
    simpa using this
  refine ⟨R, ?_, hperm, hord⟩
  rw [hplan, if_pos hlen]

theorem buildExecutionPlan_cycle_error (w : WorkflowDefinition)
    (hnd : (w.jobs.map Prod.fst).Nodup) (hv : validDeps w.jobs)
    (hcyc : ∃ j, Relation.TransGen (needsRel w.jobs) j j) :
    BuildExecutionPlan w = .error "circular dependency detected in workflow jobs" := by
  have hne : w.jobs ≠ [] := by
    obtain ⟨j, hc⟩ := hcyc
    cases hc with
    | single h =>
      obtain ⟨p, hp, _, _⟩ := h
      exact List.ne_nil_of_mem hp
    | tail h1 h2 =>
      obtain ⟨p, hp, _, _⟩ := h2
      exact List.ne_nil_of_mem hp
  obtain ⟨R, hplan, hnodup, hord, hsub, hcomp⟩ := buildExecutionPlan_success w hne hnd hv
  by_cases hlen : R.length = w.jobs.length
  · exfalso
    have hsubp : List.Subperm R (w.jobs.map Prod.fst) :=
      List.subperm_of_subset hnodup (fun a ha => hsub a ha)
    have hperm : R.Perm (w.jobs.map Prod.fst) :=
      hsubp.perm_of_length_le (by simpa using hlen.ge)
    have hall : ∀ j ∈ w.jobs.map Prod.fst, j ∈ R := fun j hj =>
      hperm.symm.subset hj
    obtain ⟨j, hc⟩ := hcyc
    exact no_cycle_of_topo w.jobs hnd hv R hord hall j hc
  · rw [hplan, if_neg hlen]

theorem addDeps_error_form (jobs : List (String × JobDefinition)) (jobID : String) :
    ∀ (needs : List String) (g : List (String × List String)) (e : String),
      addDeps jobs jobID needs g = .error e →
      ∃ b, e = "job " ++ jobID ++ " depends on non-existent job " ++ b ∧
        ¬ (alookup jobs b).isSome := by
  intro needs
  induction needs with
  | nil => intro g e h; simp [addDeps] at h
  | cons d rest ih =>
    intro g e h
    by_cases hd : (alookup jobs d).isSome
    · simp only [addDeps, if_pos hd] at h
      exact ih _ _ h
    · simp only [addDeps, if_neg hd] at h
      exact ⟨d, (Except.error.inj h).symm, hd⟩

theorem buildGraphDeg_err (jobs : List (String × JobDefinition)) :
    ∀ (rest : List (String × JobDefinition)) (g : List (String × List String))
      (deg : List (String × Int)),
      (∃ p ∈ rest, ∃ d ∈ p.2.needs, ¬ (alookup jobs d).isSome) →
      ∃ a b, buildGraphDeg jobs rest g deg =
          .error ("job " ++ a ++ " depends on non-existent job " ++ b) ∧
        ¬ (alookup jobs b).isSome := by
  intro rest
  induction rest with
  | nil =>
    rintro g deg ⟨p, hp, _⟩
    simp at hp
  | cons q rest ih =>
    rintro g deg ⟨p, hp, d, hd, hmiss⟩
    obtain ⟨jobID, job⟩ := q
    match haddeq : addDeps jobs jobID job.needs g with
    | .error e =>
      obtain ⟨b, hbe, hb⟩ := addDeps_error_form jobs jobID job.needs g e haddeq
      refine ⟨jobID, b, ?_, hb⟩
      simp only [buildGraphDeg, haddeq]
      rw [hbe]
    | .ok g₁ =>
      have hvd := addDeps_err jobs jobID job.needs g g₁ haddeq
      rcases List.mem_cons.mp hp with hp0 | hp0
      · exfalso
        subst hp0
        exact hmiss (hvd d hd)
      · obtain ⟨a, b, hres, hb⟩ := ih g₁ _ ⟨p, hp0, d, hd, hmiss⟩
        refine ⟨a, b, ?_, hb⟩
        simp only [buildGraphDeg, haddeq]
        exact hres

theorem buildExecutionPlan_missing_dep (w : WorkflowDefinition)
    (hmiss : ∃ p ∈ w.jobs, ∃ d ∈ p.2.needs, d ∉ w.jobs.map Prod.fst) :
    ∃ a b, BuildExecutionPlan w =
        .error ("job " ++ a ++ " depends on non-existent job " ++ b) ∧
      b ∉ w.jobs.map Prod.fst := by
  have hne : w.jobs ≠ [] := by
    obtain ⟨p, hp, _⟩ := hmiss
    exact List.ne_nil_of_mem hp
  obtain ⟨p, hp, d, hd, hdk⟩ := hmiss
  obtain ⟨a, b, hres, hb⟩ := buildGraphDeg_err w.jobs w.jobs [] []
    ⟨p, hp, d, hd, fun hs => hdk ((alookup_isSome_iff _ _).mp hs)⟩
  refine ⟨a, b, ?_, fun hbk => hb ((alookup_isSome_iff _ _).mpr hbk)⟩
  unfold BuildExecutionPlan
  rw [if_neg (fun h => hne (List.length_eq_zero.mp h)), hres]

/-- **C6.** `BuildExecutionPlan` is *not* deterministic as a function of the
workflow's job map: two workflows whose `jobs` association lists are
permutations of one another (i.e. the same Go map value, observed under two
different map iteration orders) produce different job sequences. This
evaluates the code at the failing input of the determinism claim: two
independent jobs `a` and `b` with no `needs`. -/
theorem c6_plan_depends_on_map_iteration_order :
    ∃ (w₁ w₂ : WorkflowDefinition),
      w₁.name = w₂.name ∧ w₁.env = w₂.env ∧ w₁.jobs.Perm w₂.jobs ∧
      (∀ k, alookup w₁.jobs k = alookup w₂.jobs k) ∧
      BuildExecutionPlan w₁ = .ok ["a", "b"] ∧
      BuildExecutionPlan w₂ = .ok ["b", "a"] := by
  refine ⟨⟨"ci", [], [("a", ⟨"ubuntu-latest", [], [], []⟩), ("b", ⟨"ubuntu-latest", [], [], []⟩)]⟩,
    ⟨"ci", [], [("b", ⟨"ubuntu-latest", [], [], []⟩), ("a", ⟨"ubuntu-latest", [], [], []⟩)]⟩,
    rfl, rfl, ?_, ?_, rfl, rfl⟩
  · exact List.Perm.swap _ _ _
  · intro k
    by_cases ha : "a" = k
    · subst ha
      rfl
    · by_cases hb : "b" = k
      · subst hb
        rfl
      · show (if "a" = k then _ else if "b" = k then _ else none) =
          (if "b" = k then _ else if "a" = k then _ else none)
        rw [if_neg ha, if_neg hb, if_neg hb, if_neg ha]

/-! ### Execution engine (internal/executor/engine.go + internal/display state)

The engine is modelled as a pure function of the workflow and an *oracle*
supplying the outcomes of the external effects (container start, run-step and
action-step execution).  Observable side effects are recorded as a trace of
events; the display's `WorkflowState` (statuses of workflow, jobs and steps)
is threaded through explicitly.  Logging and terminal rendering are external
collaborators with no control-flow effect and are not modelled. -/

/-- `ExecutionStatus` from internal/display/terminal.go. -/
inductive ExecutionStatus where
  | pending
  | running
  | success
  | failure
  | skipped
deriving DecidableEq

/-- `StepState` (name and status; timestamps are external). -/
structure StepState where
  name : String
  status : ExecutionStatus
deriving DecidableEq

/-- `JobState` (id, status and step states; timestamps are external). -/
structure JobState where
  id : String
  status : ExecutionStatus
  steps : List StepState
deriving DecidableEq

/-- `WorkflowState` (status and per-job states; log path and times external). -/
structure WorkflowState where
  status : ExecutionStatus
  jobs : List (String × JobState)
deriving DecidableEq

/-- Inner loop of `WorkflowState.UpdateStepStatus`: set the status of the
first step state with the given name. -/
def updateStepInList : List StepState → String → ExecutionStatus → List StepState
  | [], _, _ => []
  | s :: rest, name, st =>
    if s.name = name then { s with status := st } :: rest
    else s :: updateStepInList rest name st

/-- `WorkflowState.UpdateJobStatus` (no-op when the job id is unknown). -/
def UpdateJobStatus (ws : WorkflowState) (jobID : String) (st : ExecutionStatus) :
    WorkflowState :=
  match alookup ws.jobs jobID with
  | none => ws
  | some js => { ws with jobs := aset ws.jobs jobID ({ js with status := st }) }

/-- `WorkflowState.UpdateStepStatus` (first step with a matching name). -/
def UpdateStepStatus (ws : WorkflowState) (jobID stepName : String)
    (st : ExecutionStatus) : WorkflowState :=
  match alookup ws.jobs jobID with
  | none => ws
  | some js =>
    let js' : JobState := { js with steps := updateStepInList js.steps stepName st }
    { ws with jobs := aset ws.jobs jobID js' }

/-- Display name of step `i` (0-based): `Step N` when unnamed. -/
def stepDisplayName (i : Nat) (step : StepDefinition) : String :=
  if step.name = "" then "Step " ++ toString (i + 1) else step.name

/-- Observable effects of the engine, in order of occurrence. -/
inductive Event where
  | jobRunning (job : String)
  | containerStart (job : String)
  | containerStop (job : String)
  | stepStarted (job : String) (idx : Nat)
deriving DecidableEq

/-- The job an event belongs to. -/
def Event.job : Event → String
  | .jobRunning j => j
  | .containerStart j => j
  | .containerStop j => j
  | .stepStarted j _ => j

/-- The `(stepSuccess, stepError)` pair observed by `executeJob` for one step:
`hasError` models `stepError != nil` and `errMsg` the error's text (read only
when `hasError` is set). -/
structure StepOutcome where
  success : Bool
  hasError : Bool
  errMsg : String
deriving DecidableEq

/-- Outcomes of the external effects: container start success per job (with
the error text used when the start fails), and the result of
`executeRunStep` / `executeActionStep` per (job, step index). -/
structure ExecOracle where
  containerStart : String → Bool
  containerErr : String → String
  runStep : String → Nat → StepOutcome
  actionStep : String → Nat → StepOutcome

/-- The step-type dispatch of `executeJob` (engine.go lines 198-208): `uses`
is checked first, then `run`; a step with neither yields a step error without
dispatching to any executor. -/
def stepVerdict (oracle : ExecOracle) (jobID : String) (i : Nat)
    (step : StepDefinition) : StepOutcome :=
  if step.uses ≠ "" then oracle.actionStep jobID i
  else if step.run ≠ "" then oracle.runStep jobID i
  else ⟨false, true, "step has neither 'uses' nor 'run' specified"⟩

/-- Rendering of `fmt.Errorf("...: %w", stepError)`: the wrapped error's text,
or Go's `%!w(<nil>)` placeholder when the step merely reported failure with a
nil error. -/
def errText (o : StepOutcome) : String :=
  if o.hasError then o.errMsg else "%!w(<nil>)"

/-- The per-step loop of `executeJob`: mark the step Running, dispatch, and on
failure (`stepError != nil || !stepSuccess`) mark step and job Failure and
stop; on success mark the step Success and continue. -/
def runSteps (oracle : ExecOracle) (jobID : String) :
    List StepDefinition → Nat → WorkflowState →
    WorkflowState × List Event × Option String
  | [], _, ws => (ws, [], none)
  | step :: rest, i, ws =>
    let stepName := stepDisplayName i step
    let ws₁ := UpdateStepStatus ws jobID stepName .running
    let outcome := stepVerdict oracle jobID i step
    if outcome.hasError || !outcome.success then
      (UpdateJobStatus (UpdateStepStatus ws₁ jobID stepName .failure) jobID .failure,
        [Event.stepStarted jobID i],
        some ("step '" ++ stepName ++ "' failed: " ++ errText outcome))
    else
      let out := runSteps oracle jobID rest (i + 1)
        (UpdateStepStatus ws₁ jobID stepName .success)
      (out.1, Event.stepStarted jobID i :: out.2.1, out.2.2)

/-- `executeJob`: mark the job Running, start its container (failure marks the
job Failure with no container release, as the `defer` is registered only
after a successful start), run the steps, and on completion of all steps mark
the job Success.  The deferred container stop is emitted on every exit path
after a successful start. -/
def executeJob (oracle : ExecOracle) (w : WorkflowDefinition) (jobID : String)
    (ws : WorkflowState) : WorkflowState × List Event × Option String :=
  match alookup w.jobs jobID with
  | none => (ws, [], some ("job " ++ jobID ++ " not found"))
  | some job =>
    let ws₁ := UpdateJobStatus ws jobID .running
    if oracle.containerStart jobID then
      let out := runSteps oracle jobID job.steps 0 ws₁
      match out.2.2 with
      | some e =>
        (out.1,
          Event.jobRunning jobID :: Event.containerStart jobID ::
            out.2.1 ++ [Event.containerStop jobID],
          some e)
      | none =>
        (UpdateJobStatus out.1 jobID .success,
          Event.jobRunning jobID :: Event.containerStart jobID ::
            out.2.1 ++ [Event.containerStop jobID],
          none)
    else
      (UpdateJobStatus ws₁ jobID .failure,
        [Event.jobRunning jobID],
        some ("failed to start job container: " ++ oracle.containerErr jobID))

/-- Pre-populated display state of one job (`Execute`, engine.go lines 82-97). -/
def initJobState (w : WorkflowDefinition) (jobID : String) : JobState :=
  ⟨jobID, .pending,
    match alookup w.jobs jobID with
    | none => []
    | some job =>
      job.steps.enum.map (fun p => ⟨stepDisplayName p.1 p.2, ExecutionStatus.pending⟩)⟩

/-- Pre-populate job states for every job in the execution plan. -/
def initStates (w : WorkflowDefinition) : List String → WorkflowState → WorkflowState
  | [], ws => ws
  | jobID :: rest, ws =>
    initStates w rest { ws with jobs := aset ws.jobs jobID (initJobState w jobID) }

/-- The job loop of `Execute`: run jobs in plan order; the first failing job
sets the workflow status to Failure and aborts the run; if all jobs succeed
the workflow status becomes Success. -/
def execJobs (oracle : ExecOracle) (w : WorkflowDefinition) :
    List String → WorkflowState → WorkflowState × List Event × Option String
  | [], ws => ({ ws with status := .success }, [], none)
  | jobID :: rest, ws =>
    let out := executeJob oracle w jobID ws
    match out.2.2 with
    | some e =>
      ({ out.1 with status := .failure }, out.2.1,
        some ("job " ++ jobID ++ " failed: " ++ e))
    | none =>
      let next := execJobs oracle w rest out.1
      (next.1, out.2.1 ++ next.2.1, next.2.2)

/-- `WorkflowExecutor.Execute`: resolve the plan (a failure aborts before any
job state exists or any event is emitted), pre-populate the display state and
run the jobs sequentially. -/
def Execute (oracle : ExecOracle) (w : WorkflowDefinition) :
    WorkflowState × List Event × Option String :=
  match BuildExecutionPlan w with
  | .error e =>
    (⟨ExecutionStatus.running, []⟩, [], some ("failed to build execution plan: " ++ e))
  | .ok plan =>
    execJobs oracle w plan (initStates w plan ⟨ExecutionStatus.running, []⟩)

/-- Status of a job in the display state. -/
def statusOfJob (ws : WorkflowState) (jobID : String) : Option ExecutionStatus :=
  (alookup ws.jobs jobID).map JobState.status

/-- Status of the first step with the given name in a step-state list. -/
def stepStatusLookup : List StepState → String → Option ExecutionStatus
  | [], _ => none
  | s :: rest, name => if s.name = name then some s.status else stepStatusLookup rest name

/-- Status of the (first) step with the given name in a job's display state. -/
def stepStatusIn (ws : WorkflowState) (jobID stepName : String) : Option ExecutionStatus :=
  match alookup ws.jobs jobID with
  | none => none
  | some js => stepStatusLookup js.steps stepName

/-- Error result of one job's execution; by `executeJob_out_const` it does not
depend on the display state. -/
def jobErr (oracle : ExecOracle) (w : WorkflowDefinition) (jobID : String) :
    Option String :=
  (executeJob oracle w jobID ⟨ExecutionStatus.running, []⟩).2.2

/-- Step names reachable by name-keyed updates in a job's display state. -/
def jobStepsNames (ws : WorkflowState) (jobID : String) : List String :=
  ((alookup ws.jobs jobID).map (fun js => js.steps.map StepState.name)).getD []

theorem runSteps_out_const (oracle : ExecOracle) (jobID : String) :
    ∀ (steps : List StepDefinition) (i : Nat) (ws ws' : WorkflowState),
      (runSteps oracle jobID steps i ws).2 = (runSteps oracle jobID steps i ws').2 := by
  intro steps
  induction steps with
  | nil => intro i ws ws'; rfl
  | cons step rest ih =>
    intro i ws ws'
    simp only [runSteps]
    by_cases h : ((stepVerdict oracle jobID i step).hasError ||
        !(stepVerdict oracle jobID i step).success) = true
    · rw [if_pos h, if_pos h]
    · rw [if_neg h, if_neg h]
      exact congrArg (fun p => (Event.stepStarted jobID i :: p.1, p.2)) (ih (i + 1) _ _)

theorem executeJob_out_const (oracle : ExecOracle) (w : WorkflowDefinition)
    (jobID : String) (ws ws' : WorkflowState) :
    (executeJob oracle w jobID ws).2 = (executeJob oracle w jobID ws').2 := by
  unfold executeJob
  cases h : alookup w.jobs jobID with
  | none => rfl
  | some job =>
    dsimp only
    by_cases hc : oracle.containerStart jobID = true
    · rw [if_pos hc, if_pos hc]
      have hcst := runSteps_out_const oracle jobID job.steps 0
        (UpdateJobStatus ws jobID .running) (UpdateJobStatus ws' jobID .running)
      rw [show (runSteps oracle jobID job.steps 0 (UpdateJobStatus ws jobID .running)).2.1 =
            (runSteps oracle jobID job.steps 0 (UpdateJobStatus ws' jobID .running)).2.1 from
          congrArg Prod.fst hcst,
        show (runSteps oracle jobID job.steps 0 (UpdateJobStatus ws jobID .running)).2.2 =
            (runSteps oracle jobID job.steps 0 (UpdateJobStatus ws' jobID .running)).2.2 from
          congrArg Prod.snd hcst]
      cases (runSteps oracle jobID job.steps 0
          (UpdateJobStatus ws' jobID ExecutionStatus.running)).2.2 <;> rfl
    · rw [if_neg hc, if_neg hc]

theorem executeJob_err_eq (oracle : ExecOracle) (w : WorkflowDefinition)
    (jobID : String) (ws : WorkflowState) :
    (executeJob oracle w jobID ws).2.2 = jobErr oracle w jobID :=
  congrArg Prod.snd (executeJob_out_const oracle w jobID ws ⟨ExecutionStatus.running, []⟩)

theorem runSteps_events_tagged (oracle : ExecOracle) (jobID : String) :
    ∀ (steps : List StepDefinition) (i : Nat) (ws : WorkflowState) (e : Event),
      e ∈ (runSteps oracle jobID steps i ws).2.1 → e.job = jobID := by
  intro steps
  induction steps with
  | nil => intro i ws e h; simp [runSteps] at h
  | cons step rest ih =>
    intro i ws e h
    simp only [runSteps] at h
    by_cases hb : ((stepVerdict oracle jobID i step).hasError ||
        !(stepVerdict oracle jobID i step).success) = true
    · rw [if_pos hb] at h
      simp only [List.mem_singleton] at h
      rw [h]
      rfl
    · rw [if_neg hb] at h
      rcases List.mem_cons.mp h with h | h
      · rw [h]; rfl
      · exact ih (i + 1) _ e h

theorem executeJob_events_tagged (oracle : ExecOracle) (w : WorkflowDefinition)
    (jobID : String) (ws : WorkflowState) :
    ∀ e ∈ (executeJob oracle w jobID ws).2.1, e.job = jobID := by
  intro e he
  unfold executeJob at he
  cases h : alookup w.jobs jobID with
  | none => rw [h] at he; simp at he
  | some job =>
    rw [h] at he
    dsimp only at he
    by_cases hc : oracle.containerStart jobID = true
    · rw [if_pos hc] at he
      cases hout : (runSteps oracle jobID job.steps 0 (UpdateJobStatus ws jobID .running)).2.2 with
      | some msg =>
        rw [hout] at he
        simp only [List.mem_cons, List.mem_append, List.mem_singleton] at he
        rcases he with (h1 | h1 | h1) | (h1 | h1)
        · rw [h1]; rfl
        · rw [h1]; rfl
        · exact runSteps_events_tagged oracle jobID job.steps 0 _ e h1
        · rw [h1]; rfl
        · simp at h1
      | none =>
        rw [hout] at he
        simp only [List.mem_cons, List.mem_append, List.mem_singleton] at he
        rcases he with (h1 | h1 | h1) | (h1 | h1)
        · rw [h1]; rfl
        · rw [h1]; rfl
        · exact runSteps_events_tagged oracle jobID job.steps 0 _ e h1
        · rw [h1]; rfl
        · simp at h1
    · rw [if_neg hc] at he
      simp only [List.mem_singleton] at he
      rw [he]
      rfl

theorem UpdateJobStatus_other (ws : WorkflowState) (jobID : String)
    (st : ExecutionStatus) (k : String) (hk : ¬ k = jobID) :
    alookup (UpdateJobStatus ws jobID st).jobs k = alookup ws.jobs k := by
  unfold UpdateJobStatus
  cases alookup ws.jobs jobID with
  | none => rfl
  | some js => exact alookup_aset_ne _ _ _ _ hk

theorem UpdateStepStatus_other (ws : WorkflowState) (jobID stepName : String)
    (st : ExecutionStatus) (k : String) (hk : ¬ k = jobID) :
    alookup (UpdateStepStatus ws jobID stepName st).jobs k = alookup ws.jobs k := by
  unfold UpdateStepStatus
  cases alookup ws.jobs jobID with
  | none => rfl
  | some js => exact alookup_aset_ne _ _ _ _ hk

theorem runSteps_other (oracle : ExecOracle) (jobID : String) :
    ∀ (steps : List StepDefinition) (i : Nat) (ws : WorkflowState) (k : String),
      ¬ k = jobID →
      alookup (runSteps oracle jobID steps i ws).1.jobs k = alookup ws.jobs k := by
  intro steps
  induction steps with
  | nil => intro i ws k _; rfl
  | cons step rest ih =>
    intro i ws k hk
    simp only [runSteps]
    by_cases hb : ((stepVerdict oracle jobID i step).hasError ||
        !(stepVerdict oracle jobID i step).success) = true
    · rw [if_pos hb]
      simp only
      rw [UpdateJobStatus_other _ _ _ _ hk, UpdateStepStatus_other _ _ _ _ _ hk,
        UpdateStepStatus_other _ _ _ _ _ hk]
    · rw [if_neg hb]
      simp only
      rw [ih (i + 1) _ k hk, UpdateStepStatus_other _ _ _ _ _ hk,
        UpdateStepStatus_other _ _ _ _ _ hk]

theorem executeJob_other (oracle : ExecOracle) (w : WorkflowDefinition)
    (jobID : String) (ws : WorkflowState) (k : String) (hk : ¬ k = jobID) :
    alookup (executeJob oracle w jobID ws).1.jobs k = alookup ws.jobs k := by
  unfold executeJob
  cases h : alookup w.jobs jobID with
  | none => rfl
  | some job =>
    dsimp only
    by_cases hc : oracle.containerStart jobID = true
    · rw [if_pos hc]
      cases hout : (runSteps oracle jobID job.steps 0 (UpdateJobStatus ws jobID .running)).2.2 with
      | some msg =>
        simp only [hout]
        rw [runSteps_other oracle jobID job.steps 0 _ k hk,
          UpdateJobStatus_other _ _ _ _ hk]
      | none =>
        simp only [hout]
        rw [UpdateJobStatus_other _ _ _ _ hk,
          runSteps_other oracle jobID job.steps 0 _ k hk,
          UpdateJobStatus_other _ _ _ _ hk]
    · rw [if_neg hc]
      simp only
      rw [UpdateJobStatus_other _ _ _ _ hk, UpdateJobStatus_other _ _ _ _ hk]

theorem updateStepInList_names (l : List StepState) (name : String) (st : ExecutionStatus) :
    (updateStepInList l name st).map StepState.name = l.map StepState.name := by
  induction l with
  | nil => rfl
  | cons s rest ih =>
    by_cases hs : s.name = name
    · simp [updateStepInList, hs]
    · simp [updateStepInList, hs, ih]

theorem stepStatusLookup_update_self (l : List StepState) (name : String)
    (st : ExecutionStatus) (h : name ∈ l.map StepState.name) :
    stepStatusLookup (updateStepInList l name st) name = some st := by
  induction l with
  | nil => simp at h
  | cons s rest ih =>
    by_cases hs : s.name = name
    · simp [updateStepInList, hs, stepStatusLookup]
    · simp only [updateStepInList, if_neg hs, stepStatusLookup]
      apply ih
      simp only [List.map_cons, List.mem_cons] at h
      rcases h with h | h
      · exact absurd h.symm hs
      · exact h

theorem UpdateJobStatus_self_lookup (ws : WorkflowState) (jobID : String)
    (st : ExecutionStatus) (js : JobState) (h : alookup ws.jobs jobID = some js) :
    alookup (UpdateJobStatus ws jobID st).jobs jobID = some { js with status := st } := by
  unfold UpdateJobStatus
  rw [h]
  exact alookup_aset_self _ _ _

theorem UpdateStepStatus_self_lookup (ws : WorkflowState) (jobID stepName : String)
    (st : ExecutionStatus) (js : JobState) (h : alookup ws.jobs jobID = some js) :
    alookup (UpdateStepStatus ws jobID stepName st).jobs jobID =
      some { js with steps := updateStepInList js.steps stepName st } := by
  unfold UpdateStepStatus
  rw [h]
  exact alookup_aset_self _ _ _

theorem jobStepsNames_UpdateStepStatus (ws : WorkflowState) (jobID stepName : String)
    (st : ExecutionStatus) :
    jobStepsNames (UpdateStepStatus ws jobID stepName st) jobID = jobStepsNames ws jobID := by
  unfold jobStepsNames
  cases h : alookup ws.jobs jobID with
  | none =>
    unfold UpdateStepStatus
    rw [h]
    simp [h]
  | some js =>
    rw [UpdateStepStatus_self_lookup ws jobID stepName st js h]
    simp [updateStepInList_names]

theorem isSome_UpdateStepStatus (ws : WorkflowState) (jobID stepName : String)
    (st : ExecutionStatus) (h : (alookup ws.jobs jobID).isSome) :
    (alookup (UpdateStepStatus ws jobID stepName st).jobs jobID).isSome := by
  obtain ⟨js, hjs⟩ := Option.isSome_iff_exists.mp h
  rw [UpdateStepStatus_self_lookup ws jobID stepName st js hjs]
  rfl

theorem statusOfJob_UpdateJobStatus_self (ws : WorkflowState) (jobID : String)
    (st : ExecutionStatus) (h : (alookup ws.jobs jobID).isSome) :
    statusOfJob (UpdateJobStatus ws jobID st) jobID = some st := by
  obtain ⟨js, hjs⟩ := Option.isSome_iff_exists.mp h
  unfold statusOfJob
  rw [UpdateJobStatus_self_lookup ws jobID st js hjs]
  rfl

theorem runSteps_fail (oracle : ExecOracle) (jobID : String) :
    ∀ (i : Nat) (steps : List StepDefinition) (n : Nat) (ws : WorkflowState)
      (step : StepDefinition),
      steps.get? i = some step →
      (∀ (k : Nat) (stepk : StepDefinition), k < i → steps.get? k = some stepk →
        ((stepVerdict oracle jobID (n + k) stepk).hasError = false ∧
          (stepVerdict oracle jobID (n + k) stepk).success = true)) →
      ((stepVerdict oracle jobID (n + i) step).hasError = true ∨
        (stepVerdict oracle jobID (n + i) step).success = false) →
      (alookup ws.jobs jobID).isSome →
      ((runSteps oracle jobID steps n ws).2.1 =
          (List.range (i + 1)).map (fun k => Event.stepStarted jobID (n + k)) ∧
        (runSteps oracle jobID steps n ws).2.2 =
          some ("step '" ++ stepDisplayName (n + i) step ++ "' failed: " ++
            errText (stepVerdict oracle jobID (n + i) step)) ∧
        statusOfJob (runSteps oracle jobID steps n ws).1 jobID =
          some ExecutionStatus.failure ∧
        (stepDisplayName (n + i) step ∈ jobStepsNames ws jobID →
          stepStatusIn (runSteps oracle jobID steps n ws).1 jobID
            (stepDisplayName (n + i) step) = some ExecutionStatus.failure)) := by
  intro i
  induction i with
  | zero =>
    intro steps n ws step hget hbef hfail hpres
    match steps with
    | [] => simp at hget
    | step0 :: rest =>
      have hstep0 : step0 = step := by simpa using hget
      subst hstep0
      have hcond : ((stepVerdict oracle jobID n step0).hasError ||
          !(stepVerdict oracle jobID n step0).success) = true := by
        rcases hfail with h | h <;> simp only [Nat.add_zero] at h <;> simp [h]
      obtain ⟨js, hjs⟩ := Option.isSome_iff_exists.mp hpres
      simp only [runSteps]
      rw [if_pos hcond]
      refine ⟨by simp [List.range_succ], rfl, ?_, ?_⟩
      · refine statusOfJob_UpdateJobStatus_self _ _ _ ?_
        exact isSome_UpdateStepStatus _ _ _ _ (isSome_UpdateStepStatus _ _ _ _ hpres)
      · intro hmem
        have h1 := UpdateStepStatus_self_lookup ws jobID
          (stepDisplayName n step0) .running js hjs
        have h2 := UpdateStepStatus_self_lookup _ jobID
          (stepDisplayName n step0) .failure _ h1
        have h3 := UpdateJobStatus_self_lookup _ jobID .failure _ h2
        unfold stepStatusIn
        rw [h3]
        simp only
        have hnames : stepDisplayName n step0 ∈
            (updateStepInList js.steps (stepDisplayName n step0) .running).map
              StepState.name := by
          rw [updateStepInList_names]
          unfold jobStepsNames at hmem
          rw [hjs] at hmem
          simpa using hmem
        exact stepStatusLookup_update_self _ _ _ hnames
  | succ k ih =>
    intro steps n ws step hget hbef hfail hpres
    match steps with
    | [] => simp at hget
    | step0 :: rest =>
      have hok0 := hbef 0 step0 (Nat.succ_pos k) (by simp)
      have hcond : ¬ ((stepVerdict oracle jobID n step0).hasError ||
          !(stepVerdict oracle jobID n step0).success) = true := by
        have h1 := hok0.1
        have h2 := hok0.2
        simp only [Nat.add_zero] at h1 h2
        simp [h1, h2]
      simp only [runSteps]
      rw [if_neg hcond]
      have hget' : rest.get? k = some step := by simpa using hget
      have hbef' : ∀ (m : Nat) (stepm : StepDefinition), m < k →
          rest.get? m = some stepm →
          ((stepVerdict oracle jobID (n + 1 + m) stepm).hasError = false ∧
            (stepVerdict oracle jobID (n + 1 + m) stepm).success = true) := by
        intro m stepm hm hgm
        have harr : n + (m + 1) = n + 1 + m := by omega
        have := hbef (m + 1) stepm (by omega) (by simpa using hgm)
        rw [harr] at this
        exact this
      have hfail' : ((stepVerdict oracle jobID (n + 1 + k) step).hasError = true ∨
          (stepVerdict oracle jobID (n + 1 + k) step).success = false) := by
        have harr : n + (k + 1) = n + 1 + k := by omega
        rw [← harr]
        exact hfail
      have hpres' : (alookup (UpdateStepStatus (UpdateStepStatus ws jobID
          (stepDisplayName n step0) .running) jobID (stepDisplayName n step0)
            .success).jobs jobID).isSome :=
        isSome_UpdateStepStatus _ _ _ _ (isSome_UpdateStepStatus _ _ _ _ hpres)
      obtain ⟨hev, herr, hstat, hstepst⟩ := ih rest (n + 1) _ step hget' hbef' hfail' hpres'
      have harith : n + (k + 1) = n + 1 + k := by omega
      have hranges : (List.range (k + 1 + 1)).map
          (fun m => Event.stepStarted jobID (n + m)) =
          Event.stepStarted jobID n ::
            (List.range (k + 1)).map (fun m => Event.stepStarted jobID (n + 1 + m)) := by
        rw [List.range_succ_eq_map, List.map_cons, List.map_map]
        refine congrArg (fun t => Event.stepStarted jobID (n + 0) :: t) ?_
        apply List.map_congr_left
        intro m _
        simp only [Function.comp]
        refine congrArg (Event.stepStarted jobID) ?_
        omega
      refine ⟨?_, ?_, hstat, ?_⟩
      · rw [hranges]
        simp only [List.cons.injEq, true_and]
        exact hev
      · rw [harith]
        exact herr
      · intro hmem
        rw [harith]
        apply hstepst
        rw [jobStepsNames_UpdateStepStatus, jobStepsNames_UpdateStepStatus]
        rw [← harith]
        exact hmem

theorem jobStepsNames_UpdateJobStatus (ws : WorkflowState) (jobID : String)
    (st : ExecutionStatus) :
    jobStepsNames (UpdateJobStatus ws jobID st) jobID = jobStepsNames ws jobID := by
  unfold jobStepsNames
  cases h : alookup ws.jobs jobID with
  | none =>
    unfold UpdateJobStatus
    rw [h]
    simp [h]
  | some js =>
    rw [UpdateJobStatus_self_lookup ws jobID st js h]
    simp

theorem isSome_UpdateJobStatus (ws : WorkflowState) (jobID : String)
    (st : ExecutionStatus) (h : (alookup ws.jobs jobID).isSome) :
    (alookup (UpdateJobStatus ws jobID st).jobs jobID).isSome := by
  obtain ⟨js, hjs⟩ := Option.isSome_iff_exists.mp h
  rw [UpdateJobStatus_self_lookup ws jobID st js hjs]
  rfl

theorem executeJob_fail (oracle : ExecOracle) (w : WorkflowDefinition)
    (jobID : String) (ws : WorkflowState) (job : JobDefinition) (i : Nat)
    (step : StepDefinition)
    (hjob : alookup w.jobs jobID = some job)
    (hcs : oracle.containerStart jobID = true)
    (hget : job.steps.get? i = some step)
    (hbef : ∀ (k : Nat) (stepk : StepDefinition), k < i →
      job.steps.get? k = some stepk →
      ((stepVerdict oracle jobID k stepk).hasError = false ∧
        (stepVerdict oracle jobID k stepk).success = true))
    (hfail : (stepVerdict oracle jobID i step).hasError = true ∨
      (stepVerdict oracle jobID i step).success = false)
    (hpres : (alookup ws.jobs jobID).isSome) :
    (executeJob oracle w jobID ws).2.1 =
        Event.jobRunning jobID :: Event.containerStart jobID ::
          ((List.range (i + 1)).map (fun k => Event.stepStarted jobID k) ++
            [Event.containerStop jobID]) ∧
    (executeJob oracle w jobID ws).2.2 =
        some ("step '" ++ stepDisplayName i step ++ "' failed: " ++
          errText (stepVerdict oracle jobID i step)) ∧
    statusOfJob (executeJob oracle w jobID ws).1 jobID =
      some ExecutionStatus.failure ∧
    (stepDisplayName i step ∈ jobStepsNames ws jobID →
      stepStatusIn (executeJob oracle w jobID ws).1 jobID (stepDisplayName i step) =
        some ExecutionStatus.failure) := by
  have hbef0 : ∀ (k : Nat) (stepk : StepDefinition), k < i →
      job.steps.get? k = some stepk →
      ((stepVerdict oracle jobID (0 + k) stepk).hasError = false ∧
        (stepVerdict oracle jobID (0 + k) stepk).success = true) := by
    intro k stepk hk hgk
    rw [Nat.zero_add]
    exact hbef k stepk hk hgk
  have hfail0 : (stepVerdict oracle jobID (0 + i) step).hasError = true ∨
      (stepVerdict oracle jobID (0 + i) step).success = false := by
    rw [Nat.zero_add]
    exact hfail
  have hpres1 : (alookup (UpdateJobStatus ws jobID .running).jobs jobID).isSome :=
    isSome_UpdateJobStatus ws jobID .running hpres
  obtain ⟨hev, herr, hstat, hstep⟩ := runSteps_fail oracle jobID i job.steps 0
    (UpdateJobStatus ws jobID .running) step hget hbef0 hfail0 hpres1
  simp only [Nat.zero_add] at hev herr hstep
  unfold executeJob
  rw [hjob]
  dsimp only
  rw [if_pos hcs, herr]
  dsimp only
  refine ⟨?_, rfl, hstat, ?_⟩
  · rw [hev, List.cons_append, List.cons_append]
  · intro hmem
    apply hstep
    rw [jobStepsNames_UpdateJobStatus]
    exact hmem

theorem execJobs_append_ok (oracle : ExecOracle) (w : WorkflowDefinition) :
    ∀ (pre L : List String) (ws : WorkflowState),
      (∀ j ∈ pre, jobErr oracle w j = none) →
      ∃ (ws' : WorkflowState) (ev : List Event),
        execJobs oracle w (pre ++ L) ws =
          ((execJobs oracle w L ws').1,
            ev ++ (execJobs oracle w L ws').2.1,
            (execJobs oracle w L ws').2.2) ∧
        (∀ e ∈ ev, e.job ∈ pre) ∧
        (∀ k, k ∉ pre → alookup ws'.jobs k = alookup ws.jobs k) := by
  intro pre
  induction pre with
  | nil =>
    intro L ws _
    exact ⟨ws, [], by simp, by simp, fun k _ => rfl⟩
  | cons p rest ih =>
    intro L ws hok
    have hperr : (executeJob oracle w p ws).2.2 = none := by
      rw [executeJob_err_eq]
      exact hok p (List.mem_cons_self p rest)
    obtain ⟨ws', ev, heq, htag, hkeys⟩ := ih L (executeJob oracle w p ws).1
      (fun j hj => hok j (List.mem_cons_of_mem p hj))
    refine ⟨ws', (executeJob oracle w p ws).2.1 ++ ev, ?_, ?_, ?_⟩
    · show execJobs oracle w (p :: (rest ++ L)) ws = _
      simp only [execJobs]
      rw [hperr]
      dsimp only
      rw [heq, List.append_assoc]
    · intro e he
      rcases List.mem_append.mp he with he | he
      · rw [executeJob_events_tagged oracle w p ws e he]
        exact List.mem_cons_self p rest
      · exact List.mem_cons_of_mem p (htag e he)
    · intro k hk
      have hk1 : ¬ k = p := fun hkp => hk (hkp ▸ List.mem_cons_self p rest)
      have hk2 : k ∉ rest := fun hkr => hk (List.mem_cons_of_mem p hkr)
      rw [hkeys k hk2, executeJob_other oracle w p ws k hk1]

theorem initStates_other (w : WorkflowDefinition) :
    ∀ (plan : List String) (ws : WorkflowState) (k : String), k ∉ plan →
      alookup (initStates w plan ws).jobs k = alookup ws.jobs k := by
  intro plan
  induction plan with
  | nil => intro ws k _; rfl
  | cons p rest ih =>
    intro ws k hk
    have hk1 : ¬ k = p := fun hkp => hk (hkp ▸ List.mem_cons_self p rest)
    have hk2 : k ∉ rest := fun hkr => hk (List.mem_cons_of_mem p hkr)
    simp only [initStates]
    rw [ih _ k hk2]
    exact alookup_aset_ne _ _ _ _ hk1

theorem initStates_mem (w : WorkflowDefinition) :
    ∀ (plan : List String) (ws : WorkflowState) (j : String), j ∈ plan → plan.Nodup →
      alookup (initStates w plan ws).jobs j = some (initJobState w j) := by
  intro plan
  induction plan with
  | nil => intro ws j hj _; simp at hj
  | cons p rest ih =>
    intro ws j hj hnd
    by_cases hjp : j = p
    · subst hjp
      have hnotin : j ∉ rest := (List.nodup_cons.mp hnd).1
      simp only [initStates]
      rw [initStates_other w rest _ j hnotin]
      exact alookup_aset_self _ _ _
    · rcases List.mem_cons.mp hj with h | h
      · exact absurd h hjp
      · simp only [initStates]
        exact ih _ j h (List.nodup_cons.mp hnd).2

theorem mem_enumFrom_of_get (l : List StepDefinition) :
    ∀ (n i : Nat) (a : StepDefinition),
      l.get? i = some a → (n + i, a) ∈ List.enumFrom n l := by
  induction l with
  | nil => intro n i a h; simp at h
  | cons x xs ih =>
    intro n i a h
    match i with
    | 0 =>
      have hx : x = a := by simpa using h
      subst hx
      show (n + 0, x) ∈ (n, x) :: List.enumFrom (n + 1) xs
      rw [Nat.add_zero]
      exact List.mem_cons_self _ _
    | Nat.succ m =>
      have h2 : xs.get? m = some a := by simpa using h
      have hmem := ih (n + 1) m a h2
      have harr : n + (m + 1) = n + 1 + m := by omega
      show (n + (m + 1), a) ∈ (n, x) :: List.enumFrom (n + 1) xs
      apply List.mem_cons_of_mem
      rw [harr]
      exact hmem

theorem mem_enum_of_get (l : List StepDefinition) (i : Nat) (a : StepDefinition)
    (h : l.get? i = some a) : (i, a) ∈ l.enum := by
  have hmem := mem_enumFrom_of_get l 0 i a h
  rw [Nat.zero_add] at hmem
  exact hmem

theorem buildGraphDeg_ok_valid (jobs : List (String × JobDefinition)) :
    ∀ (rest : List (String × JobDefinition)) (g : List (String × List String))
      (deg : List (String × Int)) (g' : List (String × List String))
      (deg' : List (String × Int)),
      buildGraphDeg jobs rest g deg = .ok (g', deg') →
      ∀ p ∈ rest, ∀ d ∈ p.2.needs, (alookup jobs d).isSome := by
  intro rest
  induction rest with
  | nil => intro g deg g' deg' _ p hp; simp at hp
  | cons q rest ih =>
    intro g deg g' deg' hok p hp d hd
    obtain ⟨jobID, job⟩ := q
    simp only [buildGraphDeg] at hok
    cases hadd : addDeps jobs jobID job.needs g with
    | error e =>
      rw [hadd] at hok
      simp at hok
    | ok g₁ =>
      rw [hadd] at hok
      dsimp only at hok
      rcases List.mem_cons.mp hp with h | h
      · subst h
        exact addDeps_err jobs jobID job.needs g g₁ hadd d hd
      · exact ih _ _ _ _ hok p h d hd

theorem plan_of_ok (w : WorkflowDefinition) (R : List String)
    (hnd : (w.jobs.map Prod.fst).Nodup)
    (hok : BuildExecutionPlan w = .ok R) :
    R.Nodup ∧ (∀ j ∈ R, j ∈ w.jobs.map Prod.fst) := by
  have hne : w.jobs ≠ [] := by
    intro h
    unfold BuildExecutionPlan at hok
    rw [if_pos (by simp [h])] at hok
    exact absurd hok (by simp)
  have hlen : ¬ w.jobs.length = 0 := fun hh => hne (List.length_eq_zero.mp hh)
  have hv : validDeps w.jobs := by
    unfold BuildExecutionPlan at hok
    rw [if_neg hlen] at hok
    cases hbg : buildGraphDeg w.jobs w.jobs [] [] with
    | error e =>
      rw [hbg] at hok
      simp at hok
    | ok gd =>
      obtain ⟨g, deg⟩ := gd
      intro p hp d hd
      exact (alookup_isSome_iff _ _).mp
        (buildGraphDeg_ok_valid w.jobs w.jobs [] [] g deg hbg p hp d hd)
  obtain ⟨R', hplan, hnodup, _, hsub, _⟩ := buildExecutionPlan_success w hne hnd hv
  rw [hplan] at hok
  by_cases hlen2 : R'.length = w.jobs.length
  · rw [if_pos hlen2] at hok
    have hRR : R' = R := Except.ok.inj hok
    subst hRR
    exact ⟨hnodup, hsub⟩
  · rw [if_neg hlen2] at hok
    exact absurd hok (by simp)

/-- C2: Fail-fast.  In any run whose plan places `jobID` after `pre` and before
`post`, if the jobs of `pre` succeed and step `i` of `jobID` fails (a step
error or an unsuccessful result) while all earlier steps of `jobID` succeed,
then: the run's error names the failing step, the workflow and the owning job
and the failing step are all marked Failure, the job's container is released
(a containerStop event), no step of `jobID` after `i` is ever started, and no
event of any job of `post` ever occurs — no later job or step runs. -/
theorem c2_fail_fast (oracle : ExecOracle) (w : WorkflowDefinition)
    (pre post : List String) (jobID : String) (job : JobDefinition)
    (i : Nat) (step : StepDefinition)
    (hnd : (w.jobs.map Prod.fst).Nodup)
    (hplan : BuildExecutionPlan w = .ok (pre ++ jobID :: post))
    (hjob : alookup w.jobs jobID = some job)
    (hcs : oracle.containerStart jobID = true)
    (hpreok : ∀ j ∈ pre, jobErr oracle w j = none)
    (hget : job.steps.get? i = some step)
    (hbef : ∀ (k : Nat) (stepk : StepDefinition), k < i →
      job.steps.get? k = some stepk →
      ((stepVerdict oracle jobID k stepk).hasError = false ∧
        (stepVerdict oracle jobID k stepk).success = true))
    (hfail : (stepVerdict oracle jobID i step).hasError = true ∨
      (stepVerdict oracle jobID i step).success = false) :
    (Execute oracle w).2.2 =
        some ("job " ++ jobID ++ " failed: " ++
          ("step '" ++ stepDisplayName i step ++ "' failed: " ++ errText (stepVerdict oracle jobID i step))) ∧
    (Execute oracle w).1.status = ExecutionStatus.failure ∧
    statusOfJob (Execute oracle w).1 jobID = some ExecutionStatus.failure ∧
    stepStatusIn (Execute oracle w).1 jobID (stepDisplayName i step) =
      some ExecutionStatus.failure ∧
    Event.containerStop jobID ∈ (Execute oracle w).2.1 ∧
    (∀ m, Event.stepStarted jobID m ∈ (Execute oracle w).2.1 → m ≤ i) ∧
    (∀ e ∈ (Execute oracle w).2.1, e.job ∉ post) := by
  obtain ⟨hnodup, _⟩ := plan_of_ok w (pre ++ jobID :: post) hnd hplan
  rw [List.nodup_append] at hnodup
  obtain ⟨hndpre, hndrest, hdisj⟩ := hnodup
  have hjpre : jobID ∉ pre := fun hg => hdisj hg (List.mem_cons_self _ _)
  have hjpost : jobID ∉ post := (List.nodup_cons.mp hndrest).1
  have hprepost : ∀ x ∈ pre, x ∉ post :=
    fun x hx hxp => hdisj hx (List.mem_cons_of_mem _ hxp)
  have hplannd : (pre ++ jobID :: post).Nodup := by
    rw [List.nodup_append]
    exact ⟨hndpre, hndrest, hdisj⟩
  have hws0 : alookup (initStates w (pre ++ jobID :: post)
      ⟨ExecutionStatus.running, []⟩).jobs jobID = some (initJobState w jobID) :=
    initStates_mem w (pre ++ jobID :: post) _ jobID
      (List.mem_append_right pre (List.mem_cons_self _ _)) hplannd
  obtain ⟨ws', ev, heq, htag, hkeys⟩ := execJobs_append_ok oracle w pre
    (jobID :: post) (initStates w (pre ++ jobID :: post)
      ⟨ExecutionStatus.running, []⟩) hpreok
  have hws' : alookup ws'.jobs jobID = some (initJobState w jobID) := by
    rw [hkeys jobID hjpre]
    exact hws0
  have hpres : (alookup ws'.jobs jobID).isSome = true := by
    rw [hws']
    rfl
  obtain ⟨hev, herr, hstat, hstep⟩ :=
    executeJob_fail oracle w jobID ws' job i step hjob hcs hget hbef hfail hpres
  have hnames : jobStepsNames ws' jobID =
      job.steps.enum.map (fun p => stepDisplayName p.1 p.2) := by
    unfold jobStepsNames
    rw [hws']
    unfold initJobState
    rw [hjob]
    simp [List.map_map, Function.comp]
  have hmem : stepDisplayName i step ∈ jobStepsNames ws' jobID := by
    rw [hnames]
    exact List.mem_map.mpr ⟨(i, step), mem_enum_of_get job.steps i step hget, rfl⟩
  have hstep1 : execJobs oracle w (jobID :: post) ws' =
      ({ (executeJob oracle w jobID ws').1 with status := ExecutionStatus.failure },
        (executeJob oracle w jobID ws').2.1,
        some ("job " ++ jobID ++ " failed: " ++
          ("step '" ++ stepDisplayName i step ++ "' failed: " ++ errText (stepVerdict oracle jobID i step)))) := by
    simp only [execJobs]
    rw [herr]
  rw [hstep1] at heq
  have hE : Execute oracle w =
      ({ (executeJob oracle w jobID ws').1 with status := ExecutionStatus.failure },
        ev ++ (executeJob oracle w jobID ws').2.1,
        some ("job " ++ jobID ++ " failed: " ++
          ("step '" ++ stepDisplayName i step ++ "' failed: " ++ errText (stepVerdict oracle jobID i step)))) := by
    unfold Execute
    rw [hplan]
    exact heq
  rw [hE]
  refine ⟨rfl, rfl, hstat, hstep hmem, ?_, ?_, ?_⟩
  · refine List.mem_append_right ev ?_
    rw [hev]
    simp
  · intro m hm
    rcases List.mem_append.mp hm with hm | hm
    · exact absurd (htag _ hm) hjpre
    · rw [hev] at hm
      simp only [List.mem_cons, List.mem_append, List.mem_map,
        List.mem_range, List.mem_singleton] at hm
      rcases hm with hm | hm | (⟨k, hk, hke⟩ | hm)
      · simp at hm
      · simp at hm
      · obtain ⟨rfl⟩ : k = m := by
          have := (Event.stepStarted.injEq _ _ _ _).mp hke
          exact this.2.symm ▸ rfl
        omega
      · simp at hm
  · intro e he
    rcases List.mem_append.mp he with he | he
    · exact hprepost e.job (htag e he)
    · rw [executeJob_events_tagged oracle w jobID ws' e he]
      exact hjpost

/-- Two-job workflow whose first job has a failing first step: `build` with
steps `compile` (fails) and `test`, then `deploy` needing `build`. -/
def wC2 : WorkflowDefinition :=
  ⟨"ci", [],
    [("build", ⟨"ubuntu-latest", [], [],
        [⟨"compile", "make", "", []⟩, ⟨"test", "make test", "", []⟩]⟩),
     ("deploy", ⟨"ubuntu-latest", ["build"], [],
        [⟨"ship", "make deploy", "", []⟩]⟩)]⟩

/-- Oracle where containers start and every run step exits unsuccessfully
(with a nil step error, like a nonzero exit code). -/
def oracleC2 : ExecOracle :=
  ⟨fun _ => true, fun _ => "",
    fun _ _ => ⟨false, false, ""⟩, fun _ _ => ⟨true, false, ""⟩⟩

theorem c2_fail_fast_witness :
    (Execute oracleC2 wC2).2.2 =
        some ("job " ++ "build" ++ " failed: " ++
          ("step '" ++ stepDisplayName 0 ⟨"compile", "make", "", []⟩ ++ "' failed: " ++ errText (stepVerdict oracleC2 "build" 0 ⟨"compile", "make", "", []⟩))) ∧
    (Execute oracleC2 wC2).1.status = ExecutionStatus.failure ∧
    statusOfJob (Execute oracleC2 wC2).1 "build" = some ExecutionStatus.failure ∧
    stepStatusIn (Execute oracleC2 wC2).1 "build"
        (stepDisplayName 0 ⟨"compile", "make", "", []⟩) =
      some ExecutionStatus.failure ∧
    Event.containerStop "build" ∈ (Execute oracleC2 wC2).2.1 ∧
    (∀ m, Event.stepStarted "build" m ∈ (Execute oracleC2 wC2).2.1 → m ≤ 0) ∧
    (∀ e ∈ (Execute oracleC2 wC2).2.1, e.job ∉ ["deploy"]) :=
  c2_fail_fast oracleC2 wC2 [] ["deploy"] "build"
    ⟨"ubuntu-latest", [], [],
      [⟨"compile", "make", "", []⟩, ⟨"test", "make test", "", []⟩]⟩
    0 ⟨"compile", "make", "", []⟩
    (by decide) rfl rfl rfl
    (fun j hj => absurd hj (List.not_mem_nil j))
    rfl
    (fun k stepk hk _ => absurd hk (Nat.not_lt_zero k))
    (Or.inr rfl)

/-- C7: Graph errors abort the run before anything executes.  With a cycle in
the `needs` edges (all of which reference existing jobs), `BuildExecutionPlan`
returns the fixed error string "circular dependency detected in workflow jobs"
— naming no cycle member — and with a `needs` reference to a nonexistent job
it returns "job a depends on non-existent job b"; in either case `Execute`
stops with no job state created, no event emitted (so no job reaches Running
and no container is started) and only the plan-failure error. -/
theorem c7_graph_errors_abort (oracle : ExecOracle) (w : WorkflowDefinition)
    (hnd : (w.jobs.map Prod.fst).Nodup)
    (hbad : (validDeps w.jobs ∧ ∃ j, Relation.TransGen (needsRel w.jobs) j j) ∨
      (∃ p ∈ w.jobs, ∃ d ∈ p.2.needs, d ∉ w.jobs.map Prod.fst)) :
    ∃ e, BuildExecutionPlan w = .error e ∧
      Execute oracle w = (⟨ExecutionStatus.running, []⟩, [],
        some ("failed to build execution plan: " ++ e)) ∧
      (validDeps w.jobs → e = "circular dependency detected in workflow jobs") ∧
      (¬ validDeps w.jobs →
        ∃ a b, e = "job " ++ a ++ " depends on non-existent job " ++ b ∧
          b ∉ w.jobs.map Prod.fst) := by
  rcases hbad with ⟨hv, hcyc⟩ | hmiss
  · have herr := buildExecutionPlan_cycle_error w hnd hv hcyc
    refine ⟨"circular dependency detected in workflow jobs", herr, ?_, fun _ => rfl,
      fun hnv => absurd hv hnv⟩
    unfold Execute
    rw [herr]
  · obtain ⟨a, b, herr, hb⟩ := buildExecutionPlan_missing_dep w hmiss
    refine ⟨"job " ++ a ++ " depends on non-existent job " ++ b, herr, ?_, ?_, ?_⟩
    · unfold Execute
      rw [herr]
    · intro hv
      obtain ⟨p, hp, d, hd, hdk⟩ := hmiss
      exact absurd (hv p hp d hd) hdk
    · exact fun _ => ⟨a, b, rfl, hb⟩

/-- Workflow with a dependency cycle `a needs b, b needs a`. -/
def wCyc : WorkflowDefinition :=
  ⟨"ci", [],
    [("a", ⟨"ubuntu-latest", ["b"], [], []⟩),
     ("b", ⟨"ubuntu-latest", ["a"], [], []⟩)]⟩

/-- Workflow whose single job needs a job id that does not exist. -/
def wMiss : WorkflowDefinition :=
  ⟨"ci", [], [("a", ⟨"ubuntu-latest", ["ghost"], [], []⟩)]⟩

theorem c7_graph_errors_abort_witness :
    (∃ e, BuildExecutionPlan wCyc = .error e ∧
      Execute oracleC2 wCyc = (⟨ExecutionStatus.running, []⟩, [],
        some ("failed to build execution plan: " ++ e)) ∧
      (validDeps wCyc.jobs → e = "circular dependency detected in workflow jobs") ∧
      (¬ validDeps wCyc.jobs →
        ∃ a b, e = "job " ++ a ++ " depends on non-existent job " ++ b ∧
          b ∉ wCyc.jobs.map Prod.fst)) ∧
    (∃ e, BuildExecutionPlan wMiss = .error e ∧
      Execute oracleC2 wMiss = (⟨ExecutionStatus.running, []⟩, [],
        some ("failed to build execution plan: " ++ e)) ∧
      (validDeps wMiss.jobs → e = "circular dependency detected in workflow jobs") ∧
      (¬ validDeps wMiss.jobs →
        ∃ a b, e = "job " ++ a ++ " depends on non-existent job " ++ b ∧
          b ∉ wMiss.jobs.map Prod.fst)) := by
  constructor
  · apply c7_graph_errors_abort oracleC2 wCyc (by decide)
    refine Or.inl ⟨by unfold validDeps; decide, "a", ?_⟩
    have hab : needsRel wCyc.jobs "a" "b" :=
      ⟨("a", ⟨"ubuntu-latest", ["b"], [], []⟩), by decide, rfl, by decide⟩
    have hba : needsRel wCyc.jobs "b" "a" :=
      ⟨("b", ⟨"ubuntu-latest", ["a"], [], []⟩), by decide, rfl, by decide⟩
    exact Relation.TransGen.tail (Relation.TransGen.single hab) hba
  · apply c7_graph_errors_abort oracleC2 wMiss (by decide)
    exact Or.inr ⟨("a", ⟨"ubuntu-latest", ["ghost"], [], []⟩), by decide,
      "ghost", by decide, by decide⟩

theorem acyclic_of_rank (J : List (String × JobDefinition)) (rank : String → Nat)
    (h : ∀ a b, needsRel J a b → rank b < rank a) : Acyclic J := by
  intro j hcyc
  have mono : ∀ x y, Relation.TransGen (needsRel J) x y → rank y < rank x := by
    intro x y h2
    induction h2 with
    | single hs => exact h _ _ hs
    | tail _ hs ih => exact lt_trans (h _ _ hs) ih
  exact lt_irrefl _ (mono j j hcyc)

/-- Three-job DAG `build ← test ← deploy` (and `deploy` also needs `build`). -/
def wC1 : WorkflowDefinition :=
  ⟨"ci", [],
    [("build", ⟨"ubuntu-latest", [], [], []⟩),
     ("test", ⟨"ubuntu-latest", ["build"], [], []⟩),
     ("deploy", ⟨"ubuntu-latest", ["build", "test"], [], []⟩)]⟩

theorem c1_plan_is_topological_permutation_witness :
    ∃ R, BuildExecutionPlan wC1 = .ok R ∧ R.Perm (wC1.jobs.map Prod.fst) ∧
      TopoOrdered wC1.jobs R := by
  apply c1_plan_is_topological_permutation wC1 (by decide) (by decide)
    (by unfold validDeps; decide)
  apply acyclic_of_rank wC1.jobs
    (fun s => if s = "deploy" then 2 else if s = "test" then 1 else 0)
  rintro a b ⟨p, hp, rfl, hb⟩
  fin_cases hp <;> simp_all <;> rcases hb with rfl | rfl <;> decide

/-- A step with BOTH a shell command and an action reference. -/
def stepC5 : StepDefinition := ⟨"dual", "echo hi", "actions/checkout@v4", []⟩

/-- Workflow containing the both-set step. -/
def wC5 : WorkflowDefinition :=
  ⟨"ci", [], [("job1", ⟨"ubuntu-latest", [], [], [stepC5]⟩)]⟩

/-- Oracle where every external effect succeeds. -/
def oracleC5 : ExecOracle :=
  ⟨fun _ => true, fun _ => "",
    fun _ _ => ⟨true, false, ""⟩, fun _ _ => ⟨true, false, ""⟩⟩

/-- Counterexample to C5 as stated: a step with both `run` and `uses` set is
not rejected by `Parse`, and the run executes it (as an action step) to a
successful completion — no structural validation error exists anywhere. -/
theorem c5_counterexample :
    (stepC5.run ≠ "" ∧ stepC5.uses ≠ "") ∧
    Parse wC5 = .ok wC5 ∧
    (Execute oracleC5 wC5).2.2 = none ∧
    (Execute oracleC5 wC5).1.status = ExecutionStatus.success ∧
    Event.stepStarted "job1" 0 ∈ (Execute oracleC5 wC5).2.1 ∧
    stepVerdict oracleC5 "job1" 0 stepC5 = oracleC5.actionStep "job1" 0 := by
  refine ⟨⟨by decide, by decide⟩, rfl, rfl, rfl, by decide, rfl⟩

/-- C5 (corrected): neither `Parse` nor the engine performs structural
step-type validation.  `Parse` accepts every workflow with a name and at
least one job regardless of its steps; at execution time `uses` takes
precedence — a step with `uses` set dispatches to the action executor even
when `run` is also set, a step with only `run` dispatches to the shell
executor, and a step with neither is failed at execution time with the step
error "step has neither 'uses' nor 'run' specified". -/
theorem c5_step_type_dispatch (oracle : ExecOracle) (jobID : String) (i : Nat)
    (step : StepDefinition) :
    (step.uses ≠ "" → stepVerdict oracle jobID i step = oracle.actionStep jobID i) ∧
    (step.uses = "" → step.run ≠ "" →
      stepVerdict oracle jobID i step = oracle.runStep jobID i) ∧
    (step.uses = "" → step.run = "" →
      stepVerdict oracle jobID i step =
        ⟨false, true, "step has neither 'uses' nor 'run' specified"⟩) ∧
    (∀ w : WorkflowDefinition, w.name ≠ "" → w.jobs.length ≠ 0 →
      Parse w = .ok w) := by
  refine ⟨?_, ?_, ?_, ?_⟩
  · intro hu
    unfold stepVerdict
    rw [if_pos hu]
  · intro hu hr
    unfold stepVerdict
    rw [if_neg (by simp [hu]), if_pos hr]
  · intro hu hr
    unfold stepVerdict
    rw [if_neg (by simp [hu]), if_neg (by simp [hr])]
  · intro w hn hj
    unfold Parse
    rw [if_neg hn, if_neg hj]

theorem c5_step_type_dispatch_witness :
    stepVerdict oracleC5 "job1" 0 ⟨"s", "", "actions/checkout", []⟩ =
        oracleC5.actionStep "job1" 0 ∧
    stepVerdict oracleC5 "job1" 0 ⟨"s", "make", "", []⟩ =
        oracleC5.runStep "job1" 0 ∧
    stepVerdict oracleC5 "job1" 0 ⟨"s", "", "", []⟩ =
        ⟨false, true, "step has neither 'uses' nor 'run' specified"⟩ ∧
    Parse wC5 = .ok wC5 :=
  ⟨(c5_step_type_dispatch oracleC5 "job1" 0 ⟨"s", "", "actions/checkout", []⟩).1
      (by decide),
    (c5_step_type_dispatch oracleC5 "job1" 0 ⟨"s", "make", "", []⟩).2.1 rfl
      (by decide),
    (c5_step_type_dispatch oracleC5 "job1" 0 ⟨"s", "", "", []⟩).2.2.1 rfl rfl,
    (c5_step_type_dispatch oracleC5 "job1" 0 ⟨"s", "", "", []⟩).2.2.2 wC5
      (by decide) (by decide)⟩

/-! ### Character-list embedding of the string-manipulating modules -/

/-- Go string literals, embedded as character lists. -/
def str (s : String) : List Char := s.data

/-- `unicode.IsSpace` on the Latin-1 range (the characters Go's switch
recognizes). -/
def goIsSpace (c : Char) : Bool :=
  c == ' ' || c == '\t' || c == '\n' || c == Char.ofNat 11 || c == Char.ofNat 12 ||
  c == '\r' || c == Char.ofNat 0x85 || c == Char.ofNat 0xA0

/-- `strings.TrimSpace`. -/
def trimSpace (l : List Char) : List Char :=
  ((l.dropWhile goIsSpace).reverse.dropWhile goIsSpace).reverse

/-- `strings.Split` on a one-character separator. -/
def splitOnChar (sep : Char) : List Char → List (List Char)
  | [] => [[]]
  | c :: rest =>
    match splitOnChar sep rest with
    | [] => [[c]]
    | h :: t => if c = sep then [] :: h :: t else (c :: h) :: t

/-- `strings.ToLower` (ASCII, as exercised by the evaluator). -/
def toLowerL (l : List Char) : List Char := l.map Char.toLower

/-- `GitHubContext` (expressions/evaluator.go; the display-package context has
the same fields). -/
structure GitHubContext where
  repository : List Char
  sha : List Char
  ref : List Char
  workspace : List Char
  eventName : List Char
  actor : List Char
  runID : List Char
  runNumber : List Char
  job : List Char
  action : List Char
  actionPath : List Char
deriving DecidableEq

/-- `RunnerContext` (expressions/evaluator.go / display package). -/
structure RunnerContext where
  os : List Char
  arch : List Char
  name : List Char
  temp : List Char
  toolCache : List Char
deriving DecidableEq

/-- `JobContext` (expressions/evaluator.go). -/
structure JobContext where
  status : List Char
deriving DecidableEq

/-- `EvaluationContext` (expressions/evaluator.go). -/
structure EvaluationContext where
  github : GitHubContext
  env : List (List Char × List Char)
  job : JobContext
  runner : RunnerContext
  secrets : List (List Char × List Char)
deriving DecidableEq

/-- `getGitHubProperty`: the supported `github.*` properties; the result pair
mirrors Go's `(string, error)` return. -/
def getGitHubProperty (ctx : EvaluationContext) (property : List Char) :
    List Char × Option (List Char) :=
  if property = str "repository" then (ctx.github.repository, none)
  else if property = str "sha" then (ctx.github.sha, none)
  else if property = str "ref" then (ctx.github.ref, none)
  else if property = str "event_name" then (ctx.github.eventName, none)
  else if property = str "actor" then (ctx.github.actor, none)
  else ([], some (str "unknown github property: " ++ property))

/-- `getRunnerProperty`: the supported `runner.*` properties. -/
def getRunnerProperty (ctx : EvaluationContext) (property : List Char) :
    List Char × Option (List Char) :=
  if property = str "os" then (ctx.runner.os, none)
  else if property = str "arch" then (ctx.runner.arch, none)
  else ([], some (str "unknown runner property: " ++ property))

/-- `evaluateExpression`: split on `.`, require exactly two parts (any other
shape takes Go's `len(parts) != 2` branch, returning the expression together
with the error), lower-case the context name and dispatch. -/
def evaluateExpression (ctx : EvaluationContext) (expr : List Char) :
    List Char × Option (List Char) :=
  match splitOnChar '.' expr with
  | [contextName0, property] =>
    let contextName := toLowerL contextName0
    if contextName = str "github" then getGitHubProperty ctx property
    else if contextName = str "env" then
      match alookup ctx.env property with
      | some value => (value, none)
      | none => ([], some (str "environment variable " ++ property ++ str " not found"))
    else if contextName = str "runner" then getRunnerProperty ctx property
    else ([], some (str "unknown context: " ++ contextName))
  | _ => (expr, some (str "unsupported expression format: " ++ expr))

/-- `ExpressionEvaluator.Evaluate`: a value that does not both start with
`${{` and end with `}}` is returned unchanged with no error; otherwise the
inner slice `expression[3 : len(expression)-2]` (written with `dropLast`,
which agrees on every string passing the prefix/suffix guard) is trimmed and
evaluated. -/
def Evaluate (ctx : EvaluationContext) (expression : List Char) :
    List Char × Option (List Char) :=
  if !((str "$\x7b\x7b").isPrefixOf expression) || !((str "\x7d\x7d").isSuffixOf expression) then
    (expression, none)
  else
    evaluateExpression ctx (trimSpace ((expression.drop 3).dropLast.dropLast))

/-- The canonical one-expression token `${{ c.p }}`. -/
def exprToken (c p : List Char) : List Char :=
  '$' :: '{' :: '{' :: ' ' :: ((c ++ '.' :: p) ++ [' ', '}', '}'])

theorem splitOnChar_no_sep (sep : Char) :
    ∀ (l : List Char), sep ∉ l → splitOnChar sep l = [l] := by
  intro l
  induction l with
  | nil => intro _; rfl
  | cons x xs ih =>
    intro h
    have hx : ¬ x = sep := fun hh => h (hh ▸ List.mem_cons_self x xs)
    have hxs : sep ∉ xs := fun hh => h (List.mem_cons_of_mem x hh)
    simp only [splitOnChar, ih hxs]
    rw [if_neg hx]

theorem splitOnChar_ne_nil (sep : Char) (l : List Char) : splitOnChar sep l ≠ [] := by
  cases l with
  | nil => simp [splitOnChar]
  | cons c rest =>
    unfold splitOnChar
    cases h : splitOnChar sep rest with
    | nil => simp
    | cons a b =>
      dsimp only
      by_cases hc : c = sep
      · rw [if_pos hc]; simp
      · rw [if_neg hc]; simp

theorem splitOnChar_sep_append (sep : Char) :
    ∀ (c p : List Char), sep ∉ c →
      splitOnChar sep (c ++ sep :: p) = c :: splitOnChar sep p := by
  intro c
  induction c with
  | nil =>
    intro p _
    show splitOnChar sep (sep :: p) = [] :: splitOnChar sep p
    cases h : splitOnChar sep p with
    | nil => exact absurd h (splitOnChar_ne_nil sep p)
    | cons a b =>
      have hun : splitOnChar sep (sep :: p) =
          match splitOnChar sep p with
          | [] => [[sep]]
          | h :: t => if sep = sep then [] :: h :: t else (sep :: h) :: t := rfl
      rw [hun, h]
      dsimp only
      rw [if_pos rfl]
  | cons x xs ih =>
    intro p h
    have hx : ¬ x = sep := fun hh => h (hh ▸ List.mem_cons_self x xs)
    have hxs : sep ∉ xs := fun hh => h (List.mem_cons_of_mem x hh)
    show splitOnChar sep (x :: (xs ++ sep :: p)) = (x :: xs) :: splitOnChar sep p
    simp only [splitOnChar, ih p hxs]
    rw [if_neg hx]

theorem splitOnChar_two (sep : Char) (c p : List Char) (hc : sep ∉ c) (hp : sep ∉ p) :
    splitOnChar sep (c ++ sep :: p) = [c, p] := by
  rw [splitOnChar_sep_append sep c p hc, splitOnChar_no_sep sep p hp]

theorem isSuffixOf_concat2 (x y : Char) (A : List Char) :
    [x, y].isSuffixOf (A ++ [x, y]) = true := by
  simp [List.isSuffixOf]

theorem slice_inner (inner : List Char) :
    ((('$' :: '{' :: '{' :: ' ' :: (inner ++ [' ', '}', '}'])).drop 3).dropLast).dropLast
      = ' ' :: (inner ++ [' ']) := by
  have h1 : ('$' :: '{' :: '{' :: ' ' :: (inner ++ [' ', '}', '}'])).drop 3
      = ' ' :: (inner ++ [' ', '}', '}']) := rfl
  rw [h1]
  have h2 : ' ' :: (inner ++ [' ', '}', '}']) = ((' ' :: inner) ++ [' ', '}']) ++ ['}'] := by
    simp
  rw [h2, List.dropLast_concat]
  have h3 : (' ' :: inner) ++ [' ', '}'] = ((' ' :: inner) ++ [' ']) ++ ['}'] := by
    simp
  rw [h3, List.dropLast_concat]
  simp

theorem trimSpace_space_wrap (l : List Char) (hne : l ≠ [])
    (h1 : ∀ ch, l.head? = some ch → goIsSpace ch = false)
    (h2 : ∀ ch, l.getLast? = some ch → goIsSpace ch = false) :
    trimSpace (' ' :: (l ++ [' '])) = l := by
  match l, hne with
  | a :: t, _ =>
    have ha : goIsSpace a = false := h1 a rfl
    unfold trimSpace
    rw [List.dropWhile_cons]
    rw [if_pos (by decide)]
    show ((((a :: t) ++ [' ']).dropWhile goIsSpace).reverse.dropWhile goIsSpace).reverse
      = a :: t
    rw [List.cons_append, List.dropWhile_cons, if_neg (by simp [ha])]
    rw [show (a :: (t ++ [' '])).reverse = ' ' :: ((a :: t).reverse) from by simp]
    rw [List.dropWhile_cons, if_pos (by decide)]
    cases hrev : (a :: t).reverse with
    | nil => simp at hrev
    | cons b t2 =>
      have hb : goIsSpace b = false := by
        apply h2
        rw [← List.head?_reverse, hrev]
        rfl
      rw [List.dropWhile_cons, if_neg (by simp [hb]), ← hrev, List.reverse_reverse]

/-- C8: `Evaluate` on a token `${{ c.p }}` (dot-free context and property
names, not starting/ending in space).  The `github` context serves its five
supported properties from the configured context values and errors on any
other property; `env` looks the property up in the supplied Env mapping and
errors exactly when the key is absent; `runner` serves `os`/`arch` and errors
otherwise; any other context name is an error. -/
theorem c8_evaluate_token (ctx : EvaluationContext) (c p : List Char)
    (hcd : '.' ∉ c) (hpd : '.' ∉ p)
    (hch : ∀ ch, c.head? = some ch → goIsSpace ch = false)
    (hpl : ∀ ch, p.getLast? = some ch → goIsSpace ch = false) :
    (toLowerL c = str "github" →
      ((p = str "repository" →
          Evaluate ctx (exprToken c p) = (ctx.github.repository, none)) ∧
       (p = str "sha" → Evaluate ctx (exprToken c p) = (ctx.github.sha, none)) ∧
       (p = str "ref" → Evaluate ctx (exprToken c p) = (ctx.github.ref, none)) ∧
       (p = str "event_name" →
          Evaluate ctx (exprToken c p) = (ctx.github.eventName, none)) ∧
       (p = str "actor" → Evaluate ctx (exprToken c p) = (ctx.github.actor, none)) ∧
       (p ∉ [str "repository", str "sha", str "ref", str "event_name", str "actor"] →
          Evaluate ctx (exprToken c p) =
            ([], some (str "unknown github property: " ++ p))))) ∧
    (toLowerL c = str "env" →
      ((∀ v, alookup ctx.env p = some v →
          Evaluate ctx (exprToken c p) = (v, none)) ∧
       (alookup ctx.env p = none →
          Evaluate ctx (exprToken c p) =
            ([], some (str "environment variable " ++ p ++ str " not found"))))) ∧
    (toLowerL c = str "runner" →
      ((p = str "os" → Evaluate ctx (exprToken c p) = (ctx.runner.os, none)) ∧
       (p = str "arch" → Evaluate ctx (exprToken c p) = (ctx.runner.arch, none)) ∧
       (p ∉ [str "os", str "arch"] →
          Evaluate ctx (exprToken c p) =
            ([], some (str "unknown runner property: " ++ p))))) ∧
    (toLowerL c ∉ [str "github", str "env", str "runner"] →
      Evaluate ctx (exprToken c p) =
        ([], some (str "unknown context: " ++ toLowerL c))) := by
  have hs := slice_inner (c ++ '.' :: p)
  have hinner : trimSpace (((exprToken c p).drop 3).dropLast.dropLast) = c ++ '.' :: p := by
    rw [show ((exprToken c p).drop 3).dropLast.dropLast =
        ' ' :: ((c ++ '.' :: p) ++ [' ']) from hs]
    apply trimSpace_space_wrap
    · simp
    · intro ch hh
      cases c with
      | nil =>
        simp only [List.nil_append, List.head?_cons] at hh
        rw [← Option.some.inj hh]
        decide
      | cons a t =>
        rw [List.cons_append, List.head?_cons] at hh
        rw [← Option.some.inj hh]
        exact hch a rfl
    · intro ch hh
      rw [List.getLast?_append] at hh
      cases p with
      | nil =>
        simp at hh
        subst hh
        decide
      | cons b t =>
        rw [List.getLast?_cons_cons] at hh
        have hsome : ((b :: t).getLast?).isSome :=
          List.getLast?_isSome.mpr (by simp)
        obtain ⟨x, hx⟩ := Option.isSome_iff_exists.mp hsome
        rw [hx] at hh
        simp only [Option.or] at hh
        exact hpl ch (hx.trans hh)
  have hpre : (str "$\x7b\x7b").isPrefixOf (exprToken c p) = true := rfl
  have hsuf : (str "\x7d\x7d").isSuffixOf (exprToken c p) = true := by
    have h2 : exprToken c p =
        ('$' :: '{' :: '{' :: ' ' :: ((c ++ '.' :: p) ++ [' '])) ++ ['}', '}'] := by
      simp [exprToken]
    rw [h2]
    exact isSuffixOf_concat2 '}' '}' _
  have hred : Evaluate ctx (exprToken c p) = evaluateExpression ctx (c ++ '.' :: p) := by
    unfold Evaluate
    rw [if_neg (by rw [hpre, hsuf]; simp)]
    rw [hinner]
  have hsplit : splitOnChar '.' (c ++ '.' :: p) = [c, p] :=
    splitOnChar_two '.' c p hcd hpd
  have hexpr : evaluateExpression ctx (c ++ '.' :: p) =
      (if toLowerL c = str "github" then getGitHubProperty ctx p
       else if toLowerL c = str "env" then
         match alookup ctx.env p with
         | some value => (value, none)
         | none => ([], some (str "environment variable " ++ p ++ str " not found"))
       else if toLowerL c = str "runner" then getRunnerProperty ctx p
       else ([], some (str "unknown context: " ++ toLowerL c))) := by
    unfold evaluateExpression
    rw [hsplit]
  refine ⟨?_, ?_, ?_, ?_⟩
  · intro hg
    rw [hred, hexpr, if_pos hg]
    refine ⟨?_, ?_, ?_, ?_, ?_, ?_⟩
    · intro hp; subst hp
      unfold getGitHubProperty
      rw [if_pos rfl]
    · intro hp; subst hp
      unfold getGitHubProperty
      rw [if_neg (by decide), if_pos rfl]
    · intro hp; subst hp
      unfold getGitHubProperty
      rw [if_neg (by decide), if_neg (by decide), if_pos rfl]
    · intro hp; subst hp
      unfold getGitHubProperty
      rw [if_neg (by decide), if_neg (by decide), if_neg (by decide), if_pos rfl]
    · intro hp; subst hp
      unfold getGitHubProperty
      rw [if_neg (by decide), if_neg (by decide), if_neg (by decide),
        if_neg (by decide), if_pos rfl]
    · intro hnp
      simp only [List.mem_cons, List.mem_singleton, not_or] at hnp
      obtain ⟨h1, h2, h3, h4, h5, _⟩ := hnp
      unfold getGitHubProperty
      rw [if_neg h1, if_neg h2, if_neg h3, if_neg h4, if_neg h5]
  · intro he
    rw [hred, hexpr, if_neg (by rw [he]; decide), if_pos he]
    constructor
    · intro v hv
      rw [hv]
    · intro hn
      rw [hn]
  · intro hr
    rw [hred, hexpr, if_neg (by rw [hr]; decide), if_neg (by rw [hr]; decide),
      if_pos hr]
    refine ⟨?_, ?_, ?_⟩
    · intro hp; subst hp
      unfold getRunnerProperty
      rw [if_pos rfl]
    · intro hp; subst hp
      unfold getRunnerProperty
      rw [if_neg (by decide), if_pos rfl]
    · intro hnp
      simp only [List.mem_cons, List.mem_singleton, not_or] at hnp
      obtain ⟨h1, h2, _⟩ := hnp
      unfold getRunnerProperty
      rw [if_neg h1, if_neg h2]
  · intro hnc
    simp only [List.mem_cons, List.mem_singleton, not_or] at hnc
    obtain ⟨h1, h2, h3, _⟩ := hnc
    rw [hred, hexpr, if_neg h1, if_neg h2, if_neg h3]

/-- Concrete evaluation context used to instantiate the evaluator theorems. -/
def ctxC8 : EvaluationContext :=
  ⟨⟨str "owner/repo", str "abc123", str "refs/heads/main", str "/workspace",
     str "push", str "octocat", str "7", str "1", str "", str "", str ""⟩,
   [(str "FOO", str "bar")], ⟨str "in_progress"⟩,
   ⟨str "Linux", str "X64", str "gogh-runner", str "/tmp", str "/opt/hostedtoolcache"⟩,
   []⟩

theorem c8_evaluate_token_witness :
    Evaluate ctxC8 (exprToken (str "github") (str "sha")) = (str "abc123", none) ∧
    Evaluate ctxC8 (exprToken (str "env") (str "FOO")) = (str "bar", none) ∧
    Evaluate ctxC8 (exprToken (str "runner") (str "os")) = (str "Linux", none) ∧
    Evaluate ctxC8 (exprToken (str "bogus") (str "x")) =
      ([], some (str "unknown context: " ++ toLowerL (str "bogus"))) ∧
    Evaluate ctxC8 (exprToken (str "env") (str "MISSING")) =
      ([], some (str "environment variable " ++ str "MISSING" ++ str " not found")) :=
  ⟨((c8_evaluate_token ctxC8 (str "github") (str "sha") (by decide) (by decide)
      (by intro ch h; rw [← Option.some.inj h]; decide)
      (by intro ch h; rw [← Option.some.inj h]; decide)).1 (by decide)).2.1 rfl,
   ((c8_evaluate_token ctxC8 (str "env") (str "FOO") (by decide) (by decide)
      (by intro ch h; rw [← Option.some.inj h]; decide)
      (by intro ch h; rw [← Option.some.inj h]; decide)).2.1 (by decide)).1
      (str "bar") rfl,
   ((c8_evaluate_token ctxC8 (str "runner") (str "os") (by decide) (by decide)
      (by intro ch h; rw [← Option.some.inj h]; decide)
      (by intro ch h; rw [← Option.some.inj h]; decide)).2.2.1 (by decide)).1 rfl,
   (c8_evaluate_token ctxC8 (str "bogus") (str "x") (by decide) (by decide)
      (by intro ch h; rw [← Option.some.inj h]; decide)
      (by intro ch h; rw [← Option.some.inj h]; decide)).2.2.2 (by decide),
   ((c8_evaluate_token ctxC8 (str "env") (str "MISSING") (by decide) (by decide)
      (by intro ch h; rw [← Option.some.inj h]; decide)
      (by intro ch h; rw [← Option.some.inj h]; decide)).2.1 (by decide)).2 rfl⟩

/-- `strings.Index`: position of the first occurrence of `needle` in the
haystack, if any. -/
def findSub (needle : List Char) : List Char → Option Nat
  | [] => if needle.isPrefixOf [] then some 0 else none
  | c :: rest =>
    if needle.isPrefixOf (c :: rest) then some 0
    else (findSub needle rest).map (· + 1)

/-- One iteration of the `replaceExpressions` loop body (engine.go lines
368-390); `none` is Go's `break`: no `${{`, no closing `}}`, or an evaluation
error. -/
def replaceStep (ctx : EvaluationContext) (result : List Char) :
    Option (List Char) :=
  match findSub (str "$\x7b\x7b") result with
  | none => none
  | some start =>
    match findSub (str "\x7d\x7d") (result.drop start) with
    | none => none
    | some e0 =>
      let endIdx := start + e0 + 2
      let expression := (result.take endIdx).drop start
      match Evaluate ctx expression with
      | (_, some _) => none
      | (evaluated, none) =>
        some (result.take start ++ evaluated ++ result.drop endIdx)

/-- The rescan-from-the-start loop of `replaceExpressions`, with explicit
fuel.  The Go loop is unbounded; the fuel-exhaustion case (returning the
current string) has no Go counterpart and is reached exactly when the Go
loop fails to terminate. -/
def replaceLoop (ctx : EvaluationContext) : Nat → List Char → List Char
  | 0, result => result
  | fuel + 1, result =>
    match replaceStep ctx result with
    | none => result
    | some result2 => replaceLoop ctx fuel result2

/-- `replaceExpressions` (engine.go lines 363-392), fuelled. -/
def replaceExpressions (ctx : EvaluationContext) (input : List Char)
    (fuel : Nat) : List Char :=
  replaceLoop ctx fuel input

theorem isPrefixOf_cons_of_ne (nh : Char) (nt : List Char) (x : Char)
    (xs : List Char) (hx : ¬ nh = x) :
    (nh :: nt).isPrefixOf (x :: xs) = false := by
  simp [List.isPrefixOf, hx]

theorem findSub_of_isPrefixOf (needle l : List Char)
    (h : needle.isPrefixOf l = true) : findSub needle l = some 0 := by
  cases l with
  | nil =>
    unfold findSub
    rw [if_pos h]
  | cons c rest =>
    unfold findSub
    rw [if_pos h]

theorem findSub_append_of_not_head (nh : Char) (nt : List Char) :
    ∀ (a l : List Char), nh ∉ a →
      findSub (nh :: nt) (a ++ l) = (findSub (nh :: nt) l).map (· + a.length) := by
  intro a
  induction a with
  | nil =>
    intro l _
    cases h : findSub (nh :: nt) l
    · simp [h]
    · simp [h]
  | cons x xs ih =>
    intro l ha
    have hx : ¬ nh = x := fun hh => ha (hh ▸ List.mem_cons_self x xs)
    have hxs : nh ∉ xs := fun hh => ha (List.mem_cons_of_mem x hh)
    have hun : findSub (nh :: nt) (x :: (xs ++ l)) =
        if (nh :: nt).isPrefixOf (x :: (xs ++ l)) = true then some 0
        else (findSub (nh :: nt) (xs ++ l)).map (· + 1) := rfl
    show findSub (nh :: nt) (x :: (xs ++ l)) =
      (findSub (nh :: nt) l).map (· + (xs.length + 1))
    rw [hun, isPrefixOf_cons_of_ne nh nt x _ hx, if_neg (by simp), ih l hxs]
    cases findSub (nh :: nt) l with
    | none => rfl
    | some n =>
      show some (n + xs.length + 1) = some (n + (xs.length + 1))
      congr 1

theorem findSub_none_of_not_head (nh : Char) (nt : List Char) :
    ∀ (l : List Char), nh ∉ l → findSub (nh :: nt) l = none := by
  intro l
  induction l with
  | nil => intro _; rfl
  | cons x xs ih =>
    intro h
    have hx : ¬ nh = x := fun hh => h (hh ▸ List.mem_cons_self x xs)
    have hxs : nh ∉ xs := fun hh => h (List.mem_cons_of_mem x hh)
    unfold findSub
    rw [isPrefixOf_cons_of_ne nh nt x _ hx]
    rw [if_neg (by simp)]
    rw [ih hxs]
    rfl

theorem replaceStep_none_of_no_dollar (ctx : EvaluationContext) (s : List Char)
    (hs : '$' ∉ s) : replaceStep ctx s = none := by
  unfold replaceStep
  rw [show findSub (str "$\x7b\x7b") s = none from
    findSub_none_of_not_head '$' ['{', '{'] s hs]

theorem replaceStep_token (ctx : EvaluationContext) (a r c1 p1 : List Char)
    (hA : '$' ∉ a) (hc1 : '}' ∉ c1) (hp1 : '}' ∉ p1) :
    replaceStep ctx (a ++ exprToken c1 p1 ++ r) =
      (match Evaluate ctx (exprToken c1 p1) with
       | (_, some _) => none
       | (evaluated, none) => some (a ++ evaluated ++ r)) := by
  have hstart : findSub (str "$\x7b\x7b") (a ++ exprToken c1 p1 ++ r) = some a.length := by
    rw [show str "$\x7b\x7b" = ['$', '{', '{'] from rfl, List.append_assoc]
    rw [findSub_append_of_not_head '$' ['{', '{'] a (exprToken c1 p1 ++ r) hA]
    rw [findSub_of_isPrefixOf ['$', '{', '{'] (exprToken c1 p1 ++ r) rfl]
    show some (0 + a.length) = some a.length
    rw [Nat.zero_add]
  have hdrop : (a ++ exprToken c1 p1 ++ r).drop a.length = exprToken c1 p1 ++ r := by
    rw [List.append_assoc]
    exact List.drop_left a _
  have hfront : exprToken c1 p1 ++ r =
      ('$' :: '{' :: '{' :: ' ' :: ((c1 ++ '.' :: p1) ++ [' '])) ++ ('}' :: '}' :: r) := by
    simp [exprToken]
  have hend : findSub (str "\x7d\x7d") (exprToken c1 p1 ++ r) =
      some ((c1 ++ '.' :: p1).length + 5) := by
    rw [show str "\x7d\x7d" = ['}', '}'] from rfl, hfront]
    rw [findSub_append_of_not_head '}' ['}'] _ _ (by simp [hc1, hp1])]
    rw [findSub_of_isPrefixOf ['}', '}'] ('}' :: '}' :: r) (by simp [List.isPrefixOf])]
    rw [show Option.map (· + ('$' :: '{' :: '{' :: ' ' ::
        ((c1 ++ '.' :: p1) ++ [' '])).length) (some 0) =
      some (0 + ('$' :: '{' :: '{' :: ' ' :: ((c1 ++ '.' :: p1) ++ [' '])).length)
      from rfl]
    congr 1
    simp only [Nat.zero_add, List.length_cons, List.length_append,
      List.length_nil]
  have hlen : a.length + ((c1 ++ '.' :: p1).length + 5) + 2 =
      (a ++ exprToken c1 p1).length := by
    simp only [List.length_append, exprToken, List.length_cons, List.length_nil]
    omega
  have htake : (a ++ exprToken c1 p1 ++ r).take
      (a.length + ((c1 ++ '.' :: p1).length + 5) + 2) = a ++ exprToken c1 p1 := by
    rw [hlen]
    exact List.take_left _ _
  have hdropEnd : (a ++ exprToken c1 p1 ++ r).drop
      (a.length + ((c1 ++ '.' :: p1).length + 5) + 2) = r := by
    rw [hlen]
    exact List.drop_left _ _
  have htakeStart : (a ++ exprToken c1 p1 ++ r).take a.length = a := by
    rw [List.append_assoc]
    exact List.take_left _ _
  unfold replaceStep
  rw [hstart]
  dsimp only
  rw [hdrop, hend]
  dsimp only
  rw [htake, show (a ++ exprToken c1 p1).drop a.length = exprToken c1 p1 from
    List.drop_left a _, htakeStart, hdropEnd]

theorem replaceStep_token_ok (ctx : EvaluationContext) (a r c1 p1 v1 : List Char)
    (hA : '$' ∉ a) (hc1 : '}' ∉ c1) (hp1 : '}' ∉ p1)
    (heval : Evaluate ctx (exprToken c1 p1) = (v1, none)) :
    replaceStep ctx (a ++ exprToken c1 p1 ++ r) = some (a ++ v1 ++ r) := by
  rw [replaceStep_token ctx a r c1 p1 hA hc1 hp1, heval]

theorem replaceStep_token_err (ctx : EvaluationContext) (a r c1 p1 e : List Char)
    (hA : '$' ∉ a) (hc1 : '}' ∉ c1) (hp1 : '}' ∉ p1)
    (heval : (Evaluate ctx (exprToken c1 p1)).2 = some e) :
    replaceStep ctx (a ++ exprToken c1 p1 ++ r) = none := by
  rw [replaceStep_token ctx a r c1 p1 hA hc1 hp1]
  cases hEv : Evaluate ctx (exprToken c1 p1) with
  | mk val err =>
    rw [hEv] at heval
    have h2 : err = some e := heval
    subst h2
    rfl

theorem replaceLoop_succ (ctx : EvaluationContext) (fuel : Nat) (s : List Char) :
    replaceLoop ctx (fuel + 1) s =
      match replaceStep ctx s with
      | none => s
      | some s2 => replaceLoop ctx fuel s2 := rfl

theorem replaceLoop_of_none (ctx : EvaluationContext) (fuel : Nat) (s : List Char)
    (h : replaceStep ctx s = none) : replaceLoop ctx (fuel + 1) s = s := by
  rw [replaceLoop_succ, h]

theorem replaceLoop_of_some (ctx : EvaluationContext) (fuel : Nat)
    (s s2 : List Char) (h : replaceStep ctx s = some s2) :
    replaceLoop ctx (fuel + 1) s = replaceLoop ctx fuel s2 := by
  rw [replaceLoop_succ, h]

/-- C4: partial substitution.  On a string `a ${{c1.p1}} b ${{c2.p2}} c` whose
plain segments and substituted values are `$`-free, the helper replaces the
occurrences left to right: if both evaluate, both are replaced; if the second
evaluation fails, the first occurrence is replaced and the failing occurrence
and everything after it stay unresolved; if the first fails, the input is
returned whole.  In every case the helper returns a plain string — no error
reaches the caller. -/
theorem c4_partial_substitution (ctx : EvaluationContext)
    (a b c c1 p1 c2 p2 v1 v2 e : List Char) (fuel : Nat)
    (hfuel : 3 ≤ fuel)
    (hA : '$' ∉ a) (hB : '$' ∉ b) (hC : '$' ∉ c)
    (hv1 : '$' ∉ v1) (hv2 : '$' ∉ v2)
    (hc1 : '}' ∉ c1) (hp1 : '}' ∉ p1) (hc2 : '}' ∉ c2) (hp2 : '}' ∉ p2) :
    (Evaluate ctx (exprToken c1 p1) = (v1, none) →
     Evaluate ctx (exprToken c2 p2) = (v2, none) →
      replaceExpressions ctx
          (a ++ exprToken c1 p1 ++ (b ++ exprToken c2 p2 ++ c)) fuel =
        a ++ v1 ++ (b ++ v2 ++ c)) ∧
    (Evaluate ctx (exprToken c1 p1) = (v1, none) →
     (Evaluate ctx (exprToken c2 p2)).2 = some e →
      replaceExpressions ctx
          (a ++ exprToken c1 p1 ++ (b ++ exprToken c2 p2 ++ c)) fuel =
        a ++ v1 ++ (b ++ exprToken c2 p2 ++ c)) ∧
    ((Evaluate ctx (exprToken c1 p1)).2 = some e →
      replaceExpressions ctx
          (a ++ exprToken c1 p1 ++ (b ++ exprToken c2 p2 ++ c)) fuel =
        a ++ exprToken c1 p1 ++ (b ++ exprToken c2 p2 ++ c)) := by
  obtain ⟨n, rfl⟩ : ∃ n, fuel = n + 3 := ⟨fuel - 3, by omega⟩
  have hassoc1 : a ++ v1 ++ (b ++ exprToken c2 p2 ++ c) =
      (a ++ v1 ++ b) ++ exprToken c2 p2 ++ c := by
    simp [List.append_assoc]
  refine ⟨?_, ?_, ?_⟩
  · intro h1 h2
    have e1 : replaceLoop ctx (n + 3)
        (a ++ exprToken c1 p1 ++ (b ++ exprToken c2 p2 ++ c)) =
        replaceLoop ctx (n + 2) (a ++ v1 ++ (b ++ exprToken c2 p2 ++ c)) :=
      replaceLoop_of_some ctx (n + 2) _ _
        (replaceStep_token_ok ctx a _ c1 p1 v1 hA hc1 hp1 h1)
    have e2 : replaceLoop ctx (n + 2) (a ++ v1 ++ (b ++ exprToken c2 p2 ++ c)) =
        replaceLoop ctx (n + 1) ((a ++ v1 ++ b) ++ v2 ++ c) := by
      rw [hassoc1]
      exact replaceLoop_of_some ctx (n + 1) _ _
        (replaceStep_token_ok ctx (a ++ v1 ++ b) c c2 p2 v2
          (by simp [hA, hv1, hB]) hc2 hp2 h2)
    have e3 : replaceLoop ctx (n + 1) ((a ++ v1 ++ b) ++ v2 ++ c) =
        (a ++ v1 ++ b) ++ v2 ++ c :=
      replaceLoop_of_none ctx n _
        (replaceStep_none_of_no_dollar ctx _ (by simp [hA, hv1, hB, hv2, hC]))
    show replaceLoop ctx (n + 3)
        (a ++ exprToken c1 p1 ++ (b ++ exprToken c2 p2 ++ c)) = _
    rw [e1, e2, e3]
    simp [List.append_assoc]
  · intro h1 h2
    have e1 : replaceLoop ctx (n + 3)
        (a ++ exprToken c1 p1 ++ (b ++ exprToken c2 p2 ++ c)) =
        replaceLoop ctx (n + 2) (a ++ v1 ++ (b ++ exprToken c2 p2 ++ c)) :=
      replaceLoop_of_some ctx (n + 2) _ _
        (replaceStep_token_ok ctx a _ c1 p1 v1 hA hc1 hp1 h1)
    have e2 : replaceLoop ctx (n + 2) (a ++ v1 ++ (b ++ exprToken c2 p2 ++ c)) =
        a ++ v1 ++ (b ++ exprToken c2 p2 ++ c) := by
      rw [hassoc1]
      exact replaceLoop_of_none ctx (n + 1) _
        (replaceStep_token_err ctx (a ++ v1 ++ b) c c2 p2 e
          (by simp [hA, hv1, hB]) hc2 hp2 h2)
    show replaceLoop ctx (n + 3)
        (a ++ exprToken c1 p1 ++ (b ++ exprToken c2 p2 ++ c)) = _
    rw [e1, e2]
  · intro h1
    show replaceLoop ctx (n + 3)
        (a ++ exprToken c1 p1 ++ (b ++ exprToken c2 p2 ++ c)) = _
    exact replaceLoop_of_none ctx (n + 2) _
      (replaceStep_token_err ctx a _ c1 p1 e hA hc1 hp1 h1)

theorem c4_partial_substitution_witness :
    replaceExpressions ctxC8
        (str "on " ++ exprToken (str "github") (str "ref") ++
          (str " by " ++ exprToken (str "bogus") (str "x") ++ str "!")) 3 =
      str "on " ++ str "refs/heads/main" ++
        (str " by " ++ exprToken (str "bogus") (str "x") ++ str "!") :=
  (c4_partial_substitution ctxC8 (str "on ") (str " by ") (str "!")
      (str "github") (str "ref") (str "bogus") (str "x")
      (str "refs/heads/main") (str "") (str "unknown context: bogus") 3
      (by decide) (by decide) (by decide) (by decide) (by decide) (by decide)
      (by decide) (by decide) (by decide) (by decide)).2.1 (by decide) (by decide)

/-- Evaluation context whose Env maps `FOO` to the very token `${{ env.FOO }}`
— a self-referential environment value. -/
def ctxC10 : EvaluationContext :=
  ⟨⟨str "", str "", str "", str "", str "", str "", str "", str "", str "",
     str "", str ""⟩,
   [(str "FOO", exprToken (str "env") (str "FOO"))], ⟨str ""⟩,
   ⟨str "", str "", str "", str "", str ""⟩, []⟩

/-- C10 (refuted): the `${{ ... }}` replacement helper does NOT terminate on
every input.  With Env mapping `FOO` to the string `${{ env.FOO }}`, one loop
iteration on the input `${{ env.FOO }}` succeeds and reproduces the input
exactly, so the rescan-from-the-start loop never reaches its exit condition:
no fuel changes the result, and no iteration count ever makes `replaceStep`
return `none` (the Go loop spins forever). -/
theorem c10_replace_expressions_diverges :
    replaceStep ctxC10 (exprToken (str "env") (str "FOO")) =
      some (exprToken (str "env") (str "FOO")) ∧
    (∀ fuel, replaceExpressions ctxC10 (exprToken (str "env") (str "FOO")) fuel =
      exprToken (str "env") (str "FOO")) ∧
    ¬ (∃ n, replaceStep ctxC10
        ((fun r => (replaceStep ctxC10 r).getD r)^[n]
          (exprToken (str "env") (str "FOO"))) = none) := by
  have hstep : replaceStep ctxC10 (exprToken (str "env") (str "FOO")) =
      some (exprToken (str "env") (str "FOO")) := by decide
  refine ⟨hstep, ?_, ?_⟩
  · intro fuel
    induction fuel with
    | zero => rfl
    | succ f ih =>
      show replaceLoop ctxC10 (f + 1) (exprToken (str "env") (str "FOO")) = _
      rw [replaceLoop_of_some ctxC10 f _ _ hstep]
      exact ih
  · have hiter : ∀ n, (fun r => (replaceStep ctxC10 r).getD r)^[n]
        (exprToken (str "env") (str "FOO")) = exprToken (str "env") (str "FOO") := by
      intro n
      induction n with
      | zero => rfl
      | succ m ih =>
        rw [Function.iterate_succ_apply, hstep]
        exact ih
    rintro ⟨n, hn⟩
    rw [hiter n, hstep] at hn
    exact absurd hn (by simp)

/-! ### Environment resolution (EnvironmentManager, display/terminal.go) -/

/-- `EnvironmentManager`. -/
structure EnvironmentManager where
  workflowEnv : List (List Char × List Char)
  jobEnv : List (List Char × List Char)
  githubCtx : GitHubContext
  runnerCtx : RunnerContext

/-- `addGitHubContextVars`: the built-in `GITHUB_*` variables plus the
convenience variables `CI` and `GITHUB_ACTIONS`. -/
def addGitHubContextVars (em : EnvironmentManager)
    (env : List (List Char × List Char)) : List (List Char × List Char) :=
  aset (aset (aset (aset (aset (aset (aset (aset (aset (aset (aset (aset (aset
    env
    (str "GITHUB_REPOSITORY") em.githubCtx.repository)
    (str "GITHUB_SHA") em.githubCtx.sha)
    (str "GITHUB_REF") em.githubCtx.ref)
    (str "GITHUB_WORKSPACE") em.githubCtx.workspace)
    (str "GITHUB_EVENT_NAME") em.githubCtx.eventName)
    (str "GITHUB_ACTOR") em.githubCtx.actor)
    (str "GITHUB_RUN_ID") em.githubCtx.runID)
    (str "GITHUB_RUN_NUMBER") em.githubCtx.runNumber)
    (str "GITHUB_JOB") em.githubCtx.job)
    (str "GITHUB_ACTION") em.githubCtx.action)
    (str "GITHUB_ACTION_PATH") em.githubCtx.actionPath)
    (str "CI") (str "true"))
    (str "GITHUB_ACTIONS") (str "true")

/-- `addRunnerContextVars`: the built-in `RUNNER_*` variables. -/
def addRunnerContextVars (em : EnvironmentManager)
    (env : List (List Char × List Char)) : List (List Char × List Char) :=
  aset (aset (aset (aset (aset
    env
    (str "RUNNER_OS") em.runnerCtx.os)
    (str "RUNNER_ARCH") em.runnerCtx.arch)
    (str "RUNNER_NAME") em.runnerCtx.name)
    (str "RUNNER_TEMP") em.runnerCtx.temp)
    (str "RUNNER_TOOL_CACHE") em.runnerCtx.toolCache

/-- `strings.ReplaceAll`, with fuel; the haystack length is enough fuel since
every call site passes a nonempty pattern and each replacement or skip
consumes at least one character. -/
def replaceAllF (old new : List Char) : Nat → List Char → List Char
  | _, [] => []
  | 0, s => s
  | fuel + 1, x :: xs =>
    if old.isPrefixOf (x :: xs) then
      new ++ replaceAllF old new fuel ((x :: xs).drop old.length)
    else
      x :: replaceAllF old new fuel xs

/-- `strings.ReplaceAll s old new`. -/
def replaceAll (s old new : List Char) : List Char :=
  replaceAllF old new s.length s

/-- `expandVariables` (display/terminal.go lines 485-507): twelve literal
`${{ github.* }}` / `${{ runner.* }}` replacements (each pattern equals
`exprToken` of the context/property pair), then `$KEY` and `${KEY}`
replacement for every key of the current environment, in map order. -/
def expandVariables (em : EnvironmentManager) (value : List Char)
    (currentEnv : List (List Char × List Char)) : List Char :=
  let r1 := replaceAll value (exprToken (str "github") (str "repository"))
    em.githubCtx.repository
  let r2 := replaceAll r1 (exprToken (str "github") (str "sha")) em.githubCtx.sha
  let r3 := replaceAll r2 (exprToken (str "github") (str "ref")) em.githubCtx.ref
  let r4 := replaceAll r3 (exprToken (str "github") (str "workspace"))
    em.githubCtx.workspace
  let r5 := replaceAll r4 (exprToken (str "github") (str "event_name"))
    em.githubCtx.eventName
  let r6 := replaceAll r5 (exprToken (str "github") (str "actor")) em.githubCtx.actor
  let r7 := replaceAll r6 (exprToken (str "github") (str "run_id")) em.githubCtx.runID
  let r8 := replaceAll r7 (exprToken (str "github") (str "run_number"))
    em.githubCtx.runNumber
  let r9 := replaceAll r8 (exprToken (str "runner") (str "os")) em.runnerCtx.os
  let r10 := replaceAll r9 (exprToken (str "runner") (str "arch")) em.runnerCtx.arch
  let r11 := replaceAll r10 (exprToken (str "runner") (str "temp")) em.runnerCtx.temp
  let r12 := replaceAll r11 (exprToken (str "runner") (str "tool_cache"))
    em.runnerCtx.toolCache
  currentEnv.foldl (fun res p =>
    replaceAll (replaceAll res ('$' :: p.1) p.2)
      ('$' :: '{' :: (p.1 ++ ['}'])) p.2) r12

/-- `BuildStepEnvironment` (display/terminal.go lines 431-454): built-ins,
then the workflow, job and step layers, each value passed through
`expandVariables` against the environment accumulated so far. -/
def BuildStepEnvironment (em : EnvironmentManager)
    (stepEnv : List (List Char × List Char)) : List (List Char × List Char) :=
  let env0 := addRunnerContextVars em (addGitHubContextVars em [])
  let env1 := em.workflowEnv.foldl
    (fun env p => aset env p.1 (expandVariables em p.2 env)) env0
  let env2 := em.jobEnv.foldl
    (fun env p => aset env p.1 (expandVariables em p.2 env)) env1
  stepEnv.foldl (fun env p => aset env p.1 (expandVariables em p.2 env)) env2

theorem replaceAllF_no_head (nh : Char) (nt new : List Char) :
    ∀ (fuel : Nat) (s : List Char), nh ∉ s →
      replaceAllF (nh :: nt) new fuel s = s := by
  intro fuel
  induction fuel with
  | zero => intro s _; cases s <;> rfl
  | succ f ih =>
    intro s hs
    cases s with
    | nil => rfl
    | cons x xs =>
      have hx : ¬ nh = x := fun hh => hs (hh ▸ List.mem_cons_self x xs)
      have hxs : nh ∉ xs := fun hh => hs (List.mem_cons_of_mem x hh)
      show (if (nh :: nt).isPrefixOf (x :: xs) = true then
          new ++ replaceAllF (nh :: nt) new f ((x :: xs).drop (nh :: nt).length)
        else x :: replaceAllF (nh :: nt) new f xs) = x :: xs
      rw [isPrefixOf_cons_of_ne nh nt x xs hx, if_neg (by simp), ih xs hxs]

theorem replaceAll_no_head (s : List Char) (nh : Char) (nt new : List Char)
    (hs : nh ∉ s) : replaceAll s (nh :: nt) new = s :=
  replaceAllF_no_head nh nt new s.length s hs

theorem replaceAll_token_id (s c p new : List Char) (hs : '$' ∉ s) :
    replaceAll s (exprToken c p) new = s :=
  replaceAllF_no_head '$'
    ('{' :: '{' :: ' ' :: ((c ++ '.' :: p) ++ [' ', '}', '}'])) new s.length s hs

theorem env_fold_id (l : List (List Char × List Char)) :
    ∀ res, '$' ∉ res →
      l.foldl (fun res p =>
        replaceAll (replaceAll res ('$' :: p.1) p.2)
          ('$' :: '{' :: (p.1 ++ ['}'])) p.2) res = res := by
  induction l with
  | nil => intro res _; rfl
  | cons q rest ih =>
    intro res hres
    rw [List.foldl_cons]
    rw [show replaceAll (replaceAll res ('$' :: q.1) q.2)
        ('$' :: '{' :: (q.1 ++ ['}'])) q.2 = res from by
      rw [replaceAll_no_head res '$' q.1 q.2 hres,
        replaceAll_no_head res '$' ('{' :: (q.1 ++ ['}'])) q.2 hres]]
    exact ih res hres

theorem expandVariables_dollar_free (em : EnvironmentManager) (v : List Char)
    (env : List (List Char × List Char)) (hv : '$' ∉ v) :
    expandVariables em v env = v := by
  unfold expandVariables
  dsimp only
  rw [replaceAll_token_id _ _ _ _ hv, replaceAll_token_id _ _ _ _ hv,
    replaceAll_token_id _ _ _ _ hv, replaceAll_token_id _ _ _ _ hv,
    replaceAll_token_id _ _ _ _ hv, replaceAll_token_id _ _ _ _ hv,
    replaceAll_token_id _ _ _ _ hv, replaceAll_token_id _ _ _ _ hv,
    replaceAll_token_id _ _ _ _ hv, replaceAll_token_id _ _ _ _ hv,
    replaceAll_token_id _ _ _ _ hv, replaceAll_token_id _ _ _ _ hv]
  exact env_fold_id env v hv

theorem not_mem_of_alookup_none {α β : Type} [DecidableEq α]
    (l : List (α × β)) (k : α) (h : alookup l k = none) :
    k ∉ l.map Prod.fst := by
  intro hk
  have hsome := (alookup_isSome_iff l k).mpr hk
  rw [h] at hsome
  exact absurd hsome (by simp)

theorem foldl_aset_not_mem (em : EnvironmentManager) :
    ∀ (l acc : List (List Char × List Char)) (k : List Char),
      k ∉ l.map Prod.fst →
      alookup (l.foldl (fun env p => aset env p.1 (expandVariables em p.2 env)) acc) k
        = alookup acc k := by
  intro l
  induction l with
  | nil => intro acc k _; rfl
  | cons q rest ih =>
    intro acc k hk
    have hk1 : ¬ k = q.1 := fun hh => hk (hh ▸ List.mem_cons_self q.1 _)
    have hk2 : k ∉ rest.map Prod.fst := fun hh => hk (List.mem_cons_of_mem _ hh)
    rw [List.foldl_cons, ih _ k hk2]
    exact alookup_aset_ne _ _ _ _ hk1

theorem foldl_aset_lookup (em : EnvironmentManager) :
    ∀ (l acc : List (List Char × List Char)) (k v : List Char),
      (l.map Prod.fst).Nodup → alookup l k = some v → '$' ∉ v →
      alookup (l.foldl (fun env p => aset env p.1 (expandVariables em p.2 env)) acc) k
        = some v := by
  intro l
  induction l with
  | nil => intro acc k v _ hkv _; simp [alookup] at hkv
  | cons q rest ih =>
    intro acc k v hnd hkv hv
    obtain ⟨qk, qv⟩ := q
    by_cases hq : qk = k
    · have hqv : qv = v := by
        have : alookup ((qk, qv) :: rest) k = some qv := by
          show (if qk = k then some qv else alookup rest k) = some qv
          rw [if_pos hq]
        rw [this] at hkv
        exact Option.some.inj hkv
      subst hqv
      subst hq
      have hknotin : qk ∉ rest.map Prod.fst := (List.nodup_cons.mp hnd).1
      rw [List.foldl_cons, foldl_aset_not_mem em rest _ qk hknotin]
      show alookup (aset acc qk (expandVariables em qv acc)) qk = some qv
      rw [expandVariables_dollar_free em qv acc hv]
      exact alookup_aset_self _ _ _
    · have hrest : alookup rest k = some v := by
        have : alookup ((qk, qv) :: rest) k = alookup rest k := by
          show (if qk = k then some qv else alookup rest k) = alookup rest k
          rw [if_neg hq]
        rw [this] at hkv
        exact hkv
      rw [List.foldl_cons]
      exact ih _ k v (List.nodup_cons.mp hnd).2 hrest hv

/-- C3: environment precedence.  For a key whose (dollar-free) values are set
in the workflow, job and step layers, `BuildStepEnvironment` resolves it to
the step value; without a step entry, to the job value; without either, to
the workflow value; and a key set in no layer keeps its built-in value
(`GITHUB_*`/`RUNNER_*`/`CI`/`GITHUB_ACTIONS`), so precedence is
built-ins < workflow < job < step. -/
theorem c3_environment_precedence (em : EnvironmentManager)
    (stepEnv : List (List Char × List Char)) (k v : List Char)
    (hndW : (em.workflowEnv.map Prod.fst).Nodup)
    (hndJ : (em.jobEnv.map Prod.fst).Nodup)
    (hndS : (stepEnv.map Prod.fst).Nodup)
    (hv : '$' ∉ v) :
    (alookup stepEnv k = some v →
      alookup (BuildStepEnvironment em stepEnv) k = some v) ∧
    (alookup stepEnv k = none → alookup em.jobEnv k = some v →
      alookup (BuildStepEnvironment em stepEnv) k = some v) ∧
    (alookup stepEnv k = none → alookup em.jobEnv k = none →
      alookup em.workflowEnv k = some v →
      alookup (BuildStepEnvironment em stepEnv) k = some v) ∧
    (alookup stepEnv k = none → alookup em.jobEnv k = none →
      alookup em.workflowEnv k = none →
      alookup (BuildStepEnvironment em stepEnv) k =
        alookup (addRunnerContextVars em (addGitHubContextVars em [])) k) := by
  unfold BuildStepEnvironment
  dsimp only
  refine ⟨?_, ?_, ?_, ?_⟩
  · intro hs
    exact foldl_aset_lookup em stepEnv _ k v hndS hs hv
  · intro hs hj
    rw [foldl_aset_not_mem em stepEnv _ k (not_mem_of_alookup_none _ _ hs)]
    exact foldl_aset_lookup em em.jobEnv _ k v hndJ hj hv
  · intro hs hj hw
    rw [foldl_aset_not_mem em stepEnv _ k (not_mem_of_alookup_none _ _ hs),
      foldl_aset_not_mem em em.jobEnv _ k (not_mem_of_alookup_none _ _ hj)]
    exact foldl_aset_lookup em em.workflowEnv _ k v hndW hw hv
  · intro hs hj hw
    rw [foldl_aset_not_mem em stepEnv _ k (not_mem_of_alookup_none _ _ hs),
      foldl_aset_not_mem em em.jobEnv _ k (not_mem_of_alookup_none _ _ hj),
      foldl_aset_not_mem em em.workflowEnv _ k (not_mem_of_alookup_none _ _ hw)]

/-- Manager with workflow `X=1` and job `X=2`. -/
def emC3 : EnvironmentManager :=
  ⟨[(str "X", str "1")], [(str "X", str "2")], ctxC8.github, ctxC8.runner⟩

/-- Manager with workflow `X=1` and no job layer. -/
def emC3b : EnvironmentManager :=
  ⟨[(str "X", str "1")], [], ctxC8.github, ctxC8.runner⟩

theorem c3_environment_precedence_witness :
    alookup (BuildStepEnvironment emC3 [(str "X", str "3")]) (str "X") =
        some (str "3") ∧
    alookup (BuildStepEnvironment emC3 []) (str "X") = some (str "2") ∧
    alookup (BuildStepEnvironment emC3b []) (str "X") = some (str "1") ∧
    alookup (BuildStepEnvironment emC3 [(str "X", str "3")]) (str "CI") =
      alookup (addRunnerContextVars emC3 (addGitHubContextVars emC3 [])) (str "CI") :=
  ⟨(c3_environment_precedence emC3 [(str "X", str "3")] (str "X") (str "3")
      (by decide) (by decide) (by decide) (by decide)).1 rfl,
   (c3_environment_precedence emC3 [] (str "X") (str "2")
      (by decide) (by decide) (by decide) (by decide)).2.1 rfl rfl,
   (c3_environment_precedence emC3b [] (str "X") (str "1")
      (by decide) (by decide) (by decide) (by decide)).2.2.1 rfl rfl rfl,
   (c3_environment_precedence emC3 [(str "X", str "3")] (str "CI") (str "")
      (by decide) (by decide) (by decide) (by decide)).2.2.2 rfl rfl rfl⟩

/-! ### Action resolution (actions package) -/

/-- `ActionExecutor`: the interface surface the resolver consumes (`GetName`
and `ValidateInputs`; `Execute` is the external container effect and is not
modelled). -/
structure ActionExecutor where
  name : List Char
  validateInputs : List (List Char × List Char) → Option (List Char)

/-- `CheckoutAction` (container/docker.go lines 457-521, `package actions`
part): `GetName` returns "actions/checkout" and `ValidateInputs` accepts any
inputs unconditionally (`return nil`). -/
def CheckoutAction : ActionExecutor := ⟨str "actions/checkout", fun _ => none⟩

/-- `SetupNodeAction` (part_000): `GetName` returns "actions/setup-node";
`ValidateInputs` rejects a `node-version` input that is present but empty
and accepts everything else. -/
def SetupNodeAction : ActionExecutor :=
  ⟨str "actions/setup-node", fun inputs =>
    match alookup inputs (str "node-version") with
    | some v => if v = [] then some (str "node-version cannot be empty") else none
    | none => none⟩

/-- The built-in registry (`registerBuiltinActions`). -/
def builtinActions : List (List Char × ActionExecutor) :=
  [(str "actions/checkout", CheckoutAction),
   (str "actions/setup-node", SetupNodeAction)]

/-- `normalizeActionRef`: `strings.Split(actionRef, "@")[0]`. -/
def normalizeActionRef (actionRef : List Char) : List Char :=
  match splitOnChar '@' actionRef with
  | [] => []
  | h :: _ => h

/-- `strings.Join` with a separator, as used by `listSupportedActions`. -/
def joinSep (sep : List Char) : List (List Char) → List Char
  | [] => []
  | [x] => x
  | x :: xs => x ++ sep ++ joinSep sep xs

/-- `listSupportedActions`: the registry names in map order. -/
def listSupportedActions : List Char :=
  joinSep (str ", ") (builtinActions.map Prod.fst)

/-- `ResolveAction` (part_001 lines 77-91): normalize, look up the registry,
validate inputs. -/
def ResolveAction (actionRef : List Char)
    (inputs : List (List Char × List Char)) :
    Except (List Char) ActionExecutor :=
  match alookup builtinActions (normalizeActionRef actionRef) with
  | some executor =>
    match executor.validateInputs inputs with
    | some e =>
      .error (str "invalid inputs for " ++ actionRef ++ str ": " ++ e)
    | none => .ok executor
  | none =>
    .error (str "action '" ++ actionRef ++
      str "' not supported (built-in actions available: " ++
      listSupportedActions ++ str ")")

theorem normalizeActionRef_append (name ver : List Char) (h : '@' ∉ name) :
    normalizeActionRef (name ++ '@' :: ver) = name := by
  unfold normalizeActionRef
  rw [splitOnChar_sep_append '@' name ver h]

/-- C9: action resolution strips the `@version` suffix before the registry
lookup, so a registered `@`-free name resolves to the same executor under
any two version suffixes; an unregistered name yields the error naming the
supported action set; and a registered name whose executor rejects the
inputs yields the invalid-inputs error — no executor is returned. -/
theorem c9_action_resolution (name ver1 ver2 : List Char)
    (inputs : List (List Char × List Char)) (h : '@' ∉ name) :
    (∀ ex, alookup builtinActions name = some ex →
      ex.validateInputs inputs = none →
      ResolveAction (name ++ '@' :: ver1) inputs = .ok ex ∧
      ResolveAction (name ++ '@' :: ver2) inputs = .ok ex) ∧
    (alookup builtinActions name = none →
      ResolveAction (name ++ '@' :: ver1) inputs =
        .error (str "action '" ++ (name ++ '@' :: ver1) ++
          str "' not supported (built-in actions available: " ++
          listSupportedActions ++ str ")")) ∧
    (∀ ex e, alookup builtinActions name = some ex →
      ex.validateInputs inputs = some e →
      ResolveAction (name ++ '@' :: ver1) inputs =
        .error (str "invalid inputs for " ++ (name ++ '@' :: ver1) ++
          str ": " ++ e)) := by
  have hn1 := normalizeActionRef_append name ver1 h
  have hn2 := normalizeActionRef_append name ver2 h
  refine ⟨?_, ?_, ?_⟩
  · intro ex hex hval
    constructor
    · unfold ResolveAction
      rw [hn1, hex]
      dsimp only
      rw [hval]
    · unfold ResolveAction
      rw [hn2, hex]
      dsimp only
      rw [hval]
  · intro hnone
    unfold ResolveAction
    rw [hn1, hnone]
  · intro ex e hex hval
    unfold ResolveAction
    rw [hn1, hex]
    dsimp only
    rw [hval]

theorem c9_action_resolution_witness :
    ResolveAction (str "actions/checkout" ++ '@' :: str "v4") [] =
        .ok CheckoutAction ∧
    ResolveAction (str "actions/checkout" ++ '@' :: str "v3") [] =
        .ok CheckoutAction ∧
    ResolveAction (str "actions/ghost" ++ '@' :: str "v1") [] =
        .error (str "action '" ++ (str "actions/ghost" ++ '@' :: str "v1") ++
          str "' not supported (built-in actions available: " ++
          listSupportedActions ++ str ")") ∧
    ResolveAction (str "actions/setup-node" ++ '@' :: str "v4")
        [(str "node-version", str "")] =
      .error (str "invalid inputs for " ++
        (str "actions/setup-node" ++ '@' :: str "v4") ++
        str ": " ++ str "node-version cannot be empty") := by
  obtain ⟨hok1, hok2⟩ := (c9_action_resolution (str "actions/checkout")
    (str "v4") (str "v3") [] (by decide)).1 CheckoutAction rfl rfl
  refine ⟨hok1, hok2, ?_, ?_⟩
  · exact (c9_action_resolution (str "actions/ghost") (str "v1") (str "v1") []
      (by decide)).2.1 rfl
  · exact (c9_action_resolution (str "actions/setup-node") (str "v4") (str "v4")
      [(str "node-version", str "")] (by decide)).2.2 SetupNodeAction
      (str "node-version cannot be empty") rfl rfl

end Gogh
